import Mathlib

/-
Verification of the retrieval-and-citation pipeline of the spacehacks
repository (SvelteKit chat endpoint `src/web/src/routes/api/chat/+server.ts`
and the streaming variant in `src/web/src/routes/api/graph/+server.ts`).

JavaScript strings are modelled as `List Char`; JS numbers used as relevance
scores are modelled as `Rat` (the comparator only compares them); `parseInt`
of a digit run is modelled as exact base-10 parsing, which agrees with the
JS float semantics on every keep/delete decision made by the code (markers
are kept only when the parsed value is at most the evidence-set size, a
small number, where parseInt is exact).
-/

namespace SpaceHacks

/-! ### Decimal digits: `parseInt(num, 10)` and template rendering of a number -/

/-- Base-10 parse of a run of ASCII digits, most significant first;
models `parseInt(num, 10)` on the digits captured by the regex. -/
def digitsToNat (ds : List Char) : Nat :=
  ds.foldl (fun a c => 10 * a + (c.toNat - 48)) 0

/-- Fuel-indexed decimal rendering, most significant digit first. -/
def natDigitsAux : Nat → Nat → List Char
  | 0, _ => []
  | fuel + 1, n =>
    if n < 10 then [Char.ofNat (48 + n)]
    else natDigitsAux fuel (n / 10) ++ [Char.ofNat (48 + n % 10)]

/-- Decimal rendering of a natural number; models the template string
interpolation of a JS number (the value produced by `parseInt`). -/
def natDigits (n : Nat) : List Char := natDigitsAux (n + 1) n

theorem digit_char_toNat {d : Nat} (h : d < 10) :
    (Char.ofNat (48 + d)).toNat = 48 + d := by
  interval_cases d <;> decide

theorem digit_char_isDigit {d : Nat} (h : d < 10) :
    (Char.ofNat (48 + d)).isDigit = true := by
  interval_cases d <;> decide

theorem digitsToNat_append_digit (l : List Char) (c : Char) :
    digitsToNat (l ++ [c]) = 10 * digitsToNat l + (c.toNat - 48) := by
  simp [digitsToNat, List.foldl_append]

theorem natDigitsAux_parse : ∀ (fuel n : Nat), n < 10 ^ fuel →
    digitsToNat (natDigitsAux fuel n) = n := by
  intro fuel
  induction fuel with
  | zero =>
    intro n hn
    interval_cases n
    simp [natDigitsAux, digitsToNat]
  | succ fuel ih =>
    intro n hn
    by_cases h10 : n < 10
    · simp only [natDigitsAux, if_pos h10]
      simp [digitsToNat, digit_char_toNat h10]
    · simp only [natDigitsAux, if_neg h10]
      rw [digitsToNat_append_digit]
      have hdiv : n / 10 < 10 ^ fuel := by
        apply Nat.div_lt_of_lt_mul
        calc n < 10 ^ (fuel + 1) := hn
        _ = 10 * 10 ^ fuel := by ring
      rw [ih (n / 10) hdiv, digit_char_toNat (Nat.mod_lt n (by norm_num))]
      omega

theorem digitsToNat_natDigits (n : Nat) : digitsToNat (natDigits n) = n := by
  apply natDigitsAux_parse
  calc n < 10 ^ n := Nat.lt_pow_self (by norm_num) n
  _ ≤ 10 ^ (n + 1) := Nat.pow_le_pow_right (by norm_num) (Nat.le_succ n)

theorem natDigitsAux_ne_nil (fuel n : Nat) : natDigitsAux (fuel + 1) n ≠ [] := by
  by_cases h10 : n < 10 <;> simp [natDigitsAux, h10]

theorem natDigits_ne_nil (n : Nat) : natDigits n ≠ [] := natDigitsAux_ne_nil n n

theorem natDigitsAux_all_digits : ∀ (fuel n : Nat), ∀ c ∈ natDigitsAux fuel n,
    c.isDigit = true := by
  intro fuel
  induction fuel with
  | zero => intro n c hc; simp [natDigitsAux] at hc
  | succ fuel ih =>
    intro n c hc
    by_cases h10 : n < 10
    · simp only [natDigitsAux, if_pos h10, List.mem_singleton] at hc
      subst hc; exact digit_char_isDigit h10
    · simp only [natDigitsAux, if_neg h10, List.mem_append, List.mem_singleton] at hc
      rcases hc with hc | hc
      · exact ih (n / 10) c hc
      · subst hc; exact digit_char_isDigit (Nat.mod_lt n (by norm_num))

theorem natDigits_all_digits (n : Nat) : ∀ c ∈ natDigits n, c.isDigit = true :=
  natDigitsAux_all_digits (n + 1) n

/-! ### The citation sanitizer

The chat endpoint post-processes the generated answer with

  `answer.replace(/\[(\d+)\]/g, (match, num) => { const n = parseInt(num, 10);
     if (n >= 1 && n <= hits.length) return ` + "`[${n}]`" + `; return ''; })`

(`src/web/src/routes/api/chat/+server.ts`, lines 77-83; the same replace runs
on every streamed delta in `src/web/src/routes/api/graph/+server.ts`).
The global regex scans left to right for non-overlapping matches of
an opening bracket, one or more ASCII digits, and a closing bracket;
replacement text is not rescanned.  `splitMarker` is the attempt to match
the digits-and-closing-bracket part right after an opening bracket: the
greedy `\d+` takes the maximal digit run and the match succeeds only if a
closing bracket follows (shorter digit runs end on a digit, so regex
backtracking can never succeed and the maximal-run model is exact). -/

theorem takeWhile_append_of_all {p : Char → Bool} {ds : List Char} (l : List Char)
    (hd : ∀ c ∈ ds, p c = true) :
    (ds ++ l).takeWhile p = ds ++ l.takeWhile p := by
  induction ds with
  | nil => simp
  | cons c r ih =>
    rw [List.cons_append, List.takeWhile_cons_of_pos (hd c (by simp)),
      ih (fun c hc => hd c (by simp [hc])), List.cons_append]

theorem dropWhile_append_of_all {p : Char → Bool} {ds : List Char} (l : List Char)
    (hd : ∀ c ∈ ds, p c = true) :
    (ds ++ l).dropWhile p = l.dropWhile p := by
  induction ds with
  | nil => simp
  | cons c r ih =>
    rw [List.cons_append, List.dropWhile_cons_of_pos (hd c (by simp))]
    exact ih (fun c hc => hd c (by simp [hc]))

/-- Try to read `<digits>]` at the head of `l`; on success return the parsed
number and the rest after the closing bracket. -/
def splitMarker (l : List Char) : Option (Nat × List Char) :=
  let ds := l.takeWhile Char.isDigit
  if ds = [] then none
  else
    match l.dropWhile Char.isDigit with
    | [] => none
    | c :: r2 => if c = ']' then some (digitsToNat ds, r2) else none

theorem splitMarker_eq_some {l : List Char} {n : Nat} {r2 : List Char}
    (h : splitMarker l = some (n, r2)) :
    ∃ ds, l = ds ++ ']' :: r2 ∧ ds ≠ [] ∧ (∀ c ∈ ds, c.isDigit = true) ∧
      n = digitsToNat ds ∧ ds = l.takeWhile Char.isDigit := by
  unfold splitMarker at h
  by_cases hds : l.takeWhile Char.isDigit = []
  · simp [hds] at h
  · rw [if_neg hds] at h
    rcases hdw : l.dropWhile Char.isDigit with _ | ⟨c, r⟩ <;> rw [hdw] at h
    · simp at h
    · by_cases hc : c = ']'
      · subst hc
        simp only [if_pos, Option.some.injEq, Prod.mk.injEq] at h
        refine ⟨l.takeWhile Char.isDigit, ?_, hds,
          fun c hc => List.mem_takeWhile_imp hc, h.1.symm, rfl⟩
        rw [← h.2]
        conv_lhs => rw [← List.takeWhile_append_dropWhile Char.isDigit l]
        rw [hdw]
      · simp [hc] at h

theorem splitMarker_length {l : List Char} {n : Nat} {r2 : List Char}
    (h : splitMarker l = some (n, r2)) : r2.length < l.length := by
  obtain ⟨ds, hl, hne, -, -, -⟩ := splitMarker_eq_some h
  subst hl
  simp only [List.length_append, List.length_cons]
  have : 0 < ds.length := List.length_pos.mpr hne
  omega

theorem splitMarker_build {ds : List Char} (t : List Char)
    (hd : ∀ c ∈ ds, c.isDigit = true) (hne : ds ≠ []) :
    splitMarker (ds ++ ']' :: t) = some (digitsToNat ds, t) := by
  have htw : (ds ++ ']' :: t).takeWhile Char.isDigit = ds := by
    rw [takeWhile_append_of_all _ hd, List.takeWhile_cons_of_neg (by decide)]
    simp
  have hdw : (ds ++ ']' :: t).dropWhile Char.isDigit = ']' :: t := by
    rw [dropWhile_append_of_all _ hd, List.dropWhile_cons_of_neg (by decide)]
  unfold splitMarker
  rw [htw, hdw, if_neg hne]
  simp

theorem splitMarker_not_digit {c : Char} (t : List Char)
    (hc : c.isDigit = false) : splitMarker (c :: t) = none := by
  unfold splitMarker
  rw [List.takeWhile_cons_of_neg (by simp [hc])]
  simp

theorem splitMarker_all_digits {l : List Char}
    (hd : ∀ c ∈ l, c.isDigit = true) : splitMarker l = none := by
  have hdw : l.dropWhile Char.isDigit = [] := by
    have := @dropWhile_append_of_all Char.isDigit l [] hd
    simpa using this
  unfold splitMarker
  rw [hdw]
  by_cases hds : l.takeWhile Char.isDigit = [] <;> simp [hds]

/-- The rendering of a kept marker: the template `[${n}]`. -/
def renderMarker (n : Nat) : List Char := '[' :: (natDigits n ++ [']'])

/-- Fuel-indexed single left-to-right pass of
`replace(/\[(\d+)\]/g, ...)` clamping markers to `1 ≤ n ≤ N`.
The fuel only serves structural recursion; `sanitize` supplies enough. -/
def sanitizeFuel (N : Nat) : Nat → List Char → List Char
  | 0, s => s
  | _ + 1, [] => []
  | fuel + 1, c :: rest =>
    if c = '[' then
      match splitMarker rest with
      | some (n, rest2) =>
        (if 1 ≤ n ∧ n ≤ N then renderMarker n else []) ++ sanitizeFuel N fuel rest2
      | none => c :: sanitizeFuel N fuel rest
    else c :: sanitizeFuel N fuel rest

/-- The citation-sanitization pass (`answer.replace(/\[(\d+)\]/g, ...)` with
evidence-set size `N`). -/
def sanitize (N : Nat) (s : List Char) : List Char := sanitizeFuel N s.length s

theorem sanitizeFuel_congr (N : Nat) : ∀ (f g : Nat) (s : List Char),
    s.length ≤ f → s.length ≤ g → sanitizeFuel N f s = sanitizeFuel N g s := by
  intro f
  induction f with
  | zero =>
    intro g s hf hg
    have : s = [] := List.length_eq_zero.mp (Nat.le_zero.mp hf)
    subst this
    cases g <;> rfl
  | succ f ih =>
    intro g s hf hg
    rcases s with _ | ⟨c, rest⟩
    · cases g <;> rfl
    · rcases g with _ | g
      · simp at hg
      · simp only [List.length_cons, Nat.add_le_add_iff_right] at hf hg
        by_cases hc : c = '['
        · subst hc
          rcases hm : splitMarker rest with _ | ⟨n, rest2⟩
          · simp only [sanitizeFuel, hm, if_pos]
            rw [ih g rest hf hg]
          · have hlen : rest2.length < rest.length := splitMarker_length hm
            simp only [sanitizeFuel, hm, if_pos]
            rw [ih g rest2 (by omega) (by omega)]
        · simp only [sanitizeFuel, if_neg hc]
          rw [ih g rest hf hg]

theorem sanitize_nil (N : Nat) : sanitize N [] = [] := rfl

theorem sanitize_cons_ne (N : Nat) {c : Char} (rest : List Char) (hc : c ≠ '[') :
    sanitize N (c :: rest) = c :: sanitize N rest := by
  unfold sanitize
  simp only [List.length_cons]
  simp only [sanitizeFuel, if_neg hc]

theorem sanitize_open_none (N : Nat) {rest : List Char}
    (h : splitMarker rest = none) :
    sanitize N ('[' :: rest) = '[' :: sanitize N rest := by
  unfold sanitize
  simp only [List.length_cons]
  simp only [sanitizeFuel, h, if_pos]

theorem sanitize_open_some (N : Nat) {rest rest2 : List Char} {n : Nat}
    (h : splitMarker rest = some (n, rest2)) :
    sanitize N ('[' :: rest) =
      (if 1 ≤ n ∧ n ≤ N then renderMarker n else []) ++ sanitize N rest2 := by
  unfold sanitize
  simp only [List.length_cons]
  simp only [sanitizeFuel, h, if_pos]
  rw [sanitizeFuel_congr N rest.length rest2.length rest2
    (Nat.le_of_lt (splitMarker_length h)) (Nat.le_refl _)]

/-! ### The markers of a string

`markersOf s` collects the value of every occurrence of the pattern
`[<digits>]` in `s`, scanning left to right.  Because a match can start only
at an opening bracket, and the digit run of a match is forced to be maximal
(the occurrence needs a closing bracket right after its digits, and digit
runs contain no closing bracket), the leftmost non-overlapping scan visits
exactly the occurrences of the pattern: `markersOf` is the list of all
bracketed numeric markers of `s` in order. -/

def markersFuel : Nat → List Char → List Nat
  | 0, _ => []
  | _ + 1, [] => []
  | fuel + 1, c :: rest =>
    if c = '[' then
      match splitMarker rest with
      | some (n, rest2) => n :: markersFuel fuel rest2
      | none => markersFuel fuel rest
    else markersFuel fuel rest

def markersOf (s : List Char) : List Nat := markersFuel s.length s

theorem markersFuel_congr : ∀ (f g : Nat) (s : List Char),
    s.length ≤ f → s.length ≤ g → markersFuel f s = markersFuel g s := by
  intro f
  induction f with
  | zero =>
    intro g s hf hg
    have hs : s = [] := List.length_eq_zero.mp (Nat.le_zero.mp hf)
    subst hs
    cases g <;> rfl
  | succ f ih =>
    intro g s hf hg
    rcases s with _ | ⟨c, rest⟩
    · cases g <;> rfl
    · rcases g with _ | g
      · simp at hg
      · simp only [List.length_cons, Nat.add_le_add_iff_right] at hf hg
        by_cases hc : c = '['
        · subst hc
          rcases hm : splitMarker rest with _ | ⟨n, rest2⟩
          · simp only [markersFuel, hm, if_pos]
            rw [ih g rest hf hg]
          · have hlen : rest2.length < rest.length := splitMarker_length hm
            simp only [markersFuel, hm, if_pos]
            rw [ih g rest2 (by omega) (by omega)]
        · simp only [markersFuel, if_neg hc]
          rw [ih g rest hf hg]

theorem markersOf_nil : markersOf [] = [] := rfl

theorem markersOf_cons_ne {c : Char} (rest : List Char) (hc : c ≠ '[') :
    markersOf (c :: rest) = markersOf rest := by
  unfold markersOf
  simp only [List.length_cons]
  simp only [markersFuel, if_neg hc]

theorem markersOf_open_none {rest : List Char} (h : splitMarker rest = none) :
    markersOf ('[' :: rest) = markersOf rest := by
  unfold markersOf
  simp only [List.length_cons]
  simp only [markersFuel, h, if_pos]

theorem markersOf_open_some {rest rest2 : List Char} {n : Nat}
    (h : splitMarker rest = some (n, rest2)) :
    markersOf ('[' :: rest) = n :: markersOf rest2 := by
  unfold markersOf
  simp only [List.length_cons]
  simp only [markersFuel, h, if_pos]
  rw [markersFuel_congr rest.length rest2.length rest2
    (Nat.le_of_lt (splitMarker_length h)) (Nat.le_refl _)]

/-- A string contains an opening bracket followed by a (possibly empty) digit
run followed by another opening bracket.  Deleting an out-of-range marker can
create a brand-new marker in the output exactly when the input contains this
pattern (the unconsumed opening bracket and digits directly precede the
deleted match, and the deletion splices them onto the text after it). -/
def hasSplicePattern : List Char → Bool
  | [] => false
  | c :: rest =>
    (decide (c = '[') && decide ((rest.dropWhile Char.isDigit).head? = some '['))
      || hasSplicePattern rest

theorem hasSplicePattern_cons {c : Char} {rest : List Char}
    (h : hasSplicePattern (c :: rest) = false) : hasSplicePattern rest = false := by
  simp only [hasSplicePattern, Bool.or_eq_false_iff] at h
  exact h.2

theorem hasSplicePattern_open {rest : List Char}
    (h : hasSplicePattern ('[' :: rest) = false) :
    (rest.dropWhile Char.isDigit).head? ≠ some '[' := by
  simp only [hasSplicePattern, Bool.or_eq_false_iff, Bool.and_eq_false_iff] at h
  rcases h.1 with h1 | h1
  · simp at h1
  · simpa using h1

theorem hasSplicePattern_suffix : ∀ {l1 l2 : List Char}, l2 <:+ l1 →
    hasSplicePattern l1 = false → hasSplicePattern l2 = false := by
  intro l1
  induction l1 with
  | nil =>
    intro l2 hs h
    rw [List.suffix_nil.mp hs]
    exact h
  | cons c rest ih =>
    intro l2 hs h
    rcases List.suffix_cons_iff.mp hs with h2 | h2
    · subst h2; exact h
    · exact ih h2 (hasSplicePattern_cons h)

theorem sanitize_append_copy (N : Nat) : ∀ (pre l : List Char),
    (∀ c ∈ pre, c ≠ '[') → sanitize N (pre ++ l) = pre ++ sanitize N l := by
  intro pre
  induction pre with
  | nil => intro l _; simp
  | cons c r ih =>
    intro l hpre
    rw [List.cons_append, sanitize_cons_ne N _ (hpre c (by simp)),
      ih l (fun c hc => hpre c (by simp [hc])), List.cons_append]

theorem digit_ne_open {c : Char} (h : c.isDigit = true) : c ≠ '[' := by
  intro he
  subst he
  simp [Char.isDigit] at h

/-- If the scan finds no marker right after an unmatched opening bracket,
and the input has no splice pattern, then the sanitized tail also offers no
marker right after that bracket: deletions further down cannot splice one
into existence here. -/
theorem splitMarker_sanitize_none (N : Nat) {rest : List Char}
    (hsp : hasSplicePattern ('[' :: rest) = false)
    (hm : splitMarker rest = none) :
    splitMarker (sanitize N rest) = none := by
  have hsplit := List.takeWhile_append_dropWhile Char.isDigit rest
  set ds := rest.takeWhile Char.isDigit with hds
  set r := rest.dropWhile Char.isDigit with hr
  have hdsdig : ∀ c ∈ ds, c.isDigit = true := fun c hc => List.mem_takeWhile_imp hc
  have hdsopen : ∀ c ∈ ds, c ≠ '[' := fun c hc => digit_ne_open (hdsdig c hc)
  have hsan : sanitize N rest = ds ++ sanitize N r := by
    conv_lhs => rw [← hsplit]
    exact sanitize_append_copy N ds r hdsopen
  rcases hrc : r with _ | ⟨c, r2⟩
  · rw [hsan, hrc]
    exact splitMarker_all_digits (by simpa [hrc, sanitize_nil] using hdsdig)
  · have hcdig : c.isDigit = false := by
      have hh := List.head?_dropWhile_not Char.isDigit rest
      rw [← hr, hrc] at hh
      simpa using hh
    have hcopen : c ≠ '[' := by
      have := hasSplicePattern_open hsp
      rw [← hr, hrc] at this
      simpa using this
    have hsanr : sanitize N r = c :: sanitize N r2 := by
      rw [hrc, sanitize_cons_ne N _ hcopen]
    rw [hsan, hsanr]
    by_cases hdsnil : ds = []
    · rw [hdsnil, List.nil_append]
      exact splitMarker_not_digit _ hcdig
    · have hcne : c ≠ ']' := by
        intro he
        subst he
        have : splitMarker rest = some (digitsToNat ds, r2) := by
          conv_lhs => rw [← hsplit, hrc]
          exact splitMarker_build r2 hdsdig hdsnil
        rw [hm] at this
        exact Option.noConfusion this
      have htw2 : (ds ++ c :: sanitize N r2).takeWhile Char.isDigit =
          ds ++ (c :: sanitize N r2).takeWhile Char.isDigit :=
        takeWhile_append_of_all _ hdsdig
      unfold splitMarker
      rw [dropWhile_append_of_all _ hdsdig, List.dropWhile_cons_of_neg (by simp [hcdig]),
        if_neg]
      · simp [hcne]
      · rw [htw2]
        simp [hdsnil]

/-- `markersOf (sanitize N s)`: the amended core guarantee.  If the input has
no splice pattern, every marker surviving sanitization is in range. -/
theorem sanitize_markers_range_aux (N : Nat) : ∀ (m : Nat) (s : List Char),
    s.length ≤ m → hasSplicePattern s = false →
    ∀ k ∈ markersOf (sanitize N s), 1 ≤ k ∧ k ≤ N := by
  intro m
  induction m with
  | zero =>
    intro s hm _
    have hs : s = [] := List.length_eq_zero.mp (Nat.le_zero.mp hm)
    subst hs
    simp [sanitize_nil, markersOf_nil]
  | succ m ih =>
    intro s hm hsp
    rcases s with _ | ⟨c, rest⟩
    · simp [sanitize_nil, markersOf_nil]
    · simp only [List.length_cons, Nat.add_le_add_iff_right] at hm
      by_cases hc : c = '['
      · subst hc
        rcases hmk : splitMarker rest with _ | ⟨n, rest2⟩
        · rw [sanitize_open_none N hmk,
            markersOf_open_none (splitMarker_sanitize_none N hsp hmk)]
          exact ih rest hm (hasSplicePattern_cons hsp)
        · have hlen : rest2.length < rest.length := splitMarker_length hmk
          have hsp2 : hasSplicePattern rest2 = false := by
            obtain ⟨ds, hrest, -, -, -, -⟩ := splitMarker_eq_some hmk
            refine hasSplicePattern_suffix ?_ (hasSplicePattern_cons hsp)
            exact ⟨ds ++ [']'], by simp [hrest]⟩
          have ihrest2 := ih rest2 (by omega) hsp2
          rw [sanitize_open_some N hmk]
          by_cases hk : 1 ≤ n ∧ n ≤ N
          · rw [if_pos hk]
            have hren : renderMarker n ++ sanitize N rest2 =
                '[' :: (natDigits n ++ ']' :: sanitize N rest2) := by
              simp [renderMarker]
            rw [hren, markersOf_open_some (by
              rw [splitMarker_build _ (natDigits_all_digits n) (natDigits_ne_nil n),
                digitsToNat_natDigits])]
            intro k hkm
            rcases List.mem_cons.mp hkm with rfl | hkm
            · exact hk
            · exact ihrest2 k hkm
          · rw [if_neg hk, List.nil_append]
            exact ihrest2
      · rw [sanitize_cons_ne N _ hc, markersOf_cons_ne _ hc]
        exact ih rest hm (hasSplicePattern_cons hsp)

/-- Sanitization leaves a string without markers unchanged. -/
theorem sanitize_of_no_markers (N : Nat) : ∀ (m : Nat) (s : List Char),
    s.length ≤ m → markersOf s = [] → sanitize N s = s := by
  intro m
  induction m with
  | zero =>
    intro s hm _
    have hs : s = [] := List.length_eq_zero.mp (Nat.le_zero.mp hm)
    subst hs
    rfl
  | succ m ih =>
    intro s hm hmk
    rcases s with _ | ⟨c, rest⟩
    · rfl
    · simp only [List.length_cons, Nat.add_le_add_iff_right] at hm
      by_cases hc : c = '['
      · subst hc
        rcases hsp : splitMarker rest with _ | ⟨n, rest2⟩
        · rw [markersOf_open_none hsp] at hmk
          rw [sanitize_open_none N hsp, ih rest hm hmk]
        · rw [markersOf_open_some hsp] at hmk
          exact absurd hmk (by simp)
      · rw [markersOf_cons_ne _ hc] at hmk
        rw [sanitize_cons_ne N _ hc, ih rest hm hmk]

/-! ### Retrieval hits and deduplication by owning article

`dedupeByArticle` (`src/web/src/routes/api/chat/+server.ts`, lines 129-145)
buckets hits into a plain JS object keyed by `_source.article_id`, with
`key = a || Math.random().toString()` for hits whose id is missing or the
empty string (both falsy).  The `Math.random()` keys are modelled as
guaranteed-fresh keys (`Sum.inr` with a counter); a collision of a random
decimal fraction string with an article id has probability zero and is the
clear intent.  `Object.values` enumerates the string keys of an object in
property order as defined by ECMAScript OrdinaryOwnPropertyKeys: keys that
are canonical numerals of array indices (integers below 2^32 - 1) first, in
ascending numeric order, then the remaining keys in insertion order; the
random keys all look like `0.123...` and are never array indices.
`chunks.sort((a, b) => (b._score || 0) - (a._score || 0))` is a stable
descending sort (Array.prototype.sort is stable); any stable sorting
algorithm computes the same function of the comparator, so it is modelled
by a stable insertion sort. -/

structure HitSource where
  article_id : Option (List Char)
  title : Option (List Char)
  url : Option (List Char)
  content : Option (List Char)
deriving DecidableEq, Inhabited

structure Hit where
  source : Option HitSource
  score : Option Rat
  highlightContent : Option (List (List Char))
deriving DecidableEq, Inhabited

/-- `hit?._source ?? {}`. -/
def sourceOf (h : Hit) : HitSource := h.source.getD default

/-- `h?._source?.article_id`. -/
def articleId (h : Hit) : Option (List Char) := (sourceOf h).article_id

/-- `x._score || 0`. -/
def scoreD (h : Hit) : Rat := h.score.getD 0

/-- Bucket keys: `Sum.inl` a truthy article id, `Sum.inr` a fresh key
standing for one `Math.random().toString()` result. -/
abbrev GroupKey := Sum (List Char) Nat

/-- `const key = a || Math.random().toString()`: the id when truthy, else a
fresh random key; returns the key and the next fresh counter. -/
def keyOf (h : Hit) (fresh : Nat) : GroupKey × Nat :=
  match articleId h with
  | some a => if a = [] then (Sum.inr fresh, fresh + 1) else (Sum.inl a, fresh)
  | none => (Sum.inr fresh, fresh + 1)

/-- `if (!byArticle[key]) byArticle[key] = []; byArticle[key].push(h)` on an
insertion-ordered record. -/
def insertGroup (key : GroupKey) (h : Hit) :
    List (GroupKey × List Hit) → List (GroupKey × List Hit)
  | [] => [(key, [h])]
  | (k, chunks) :: rest =>
    if k = key then (k, chunks ++ [h]) :: rest
    else (k, chunks) :: insertGroup key h rest

def groupHitsAux : List Hit → List (GroupKey × List Hit) → Nat →
    List (GroupKey × List Hit)
  | [], acc, _ => acc
  | h :: rest, acc, fresh =>
    let kf := keyOf h fresh
    groupHitsAux rest (insertGroup kf.1 h acc) kf.2

/-- The `byArticle` record after the first loop, in insertion order. -/
def groupHits (hits : List Hit) : List (GroupKey × List Hit) :=
  groupHitsAux hits [] 0

/-- A string key that ECMAScript treats as an array index: the canonical
base-10 numeral of an integer below 2^32 - 1. -/
def isArrayIndexName (a : List Char) : Bool :=
  (decide (a ≠ [])) && a.all Char.isDigit &&
    (decide (a = ['0']) || decide (a.head? ≠ some '0')) &&
    decide (digitsToNat a < 4294967295)

def isArrayIndexKey : GroupKey → Bool
  | Sum.inl a => isArrayIndexName a
  | Sum.inr _ => false

def keyNum : GroupKey → Nat
  | Sum.inl a => digitsToNat a
  | Sum.inr _ => 0

def insertAscBy (g : GroupKey × List Hit) :
    List (GroupKey × List Hit) → List (GroupKey × List Hit)
  | [] => [g]
  | g2 :: rest =>
    if keyNum g.1 < keyNum g2.1 then g :: g2 :: rest else g2 :: insertAscBy g rest

def sortKeysAsc : List (GroupKey × List Hit) → List (GroupKey × List Hit)
  | [] => []
  | g :: rest => insertAscBy g (sortKeysAsc rest)

/-- `Object.values(byArticle)` enumeration order (array-index keys
ascending first, then the rest in insertion order). -/
def valuesOrder (groups : List (GroupKey × List Hit)) :
    List (GroupKey × List Hit) :=
  sortKeysAsc (groups.filter fun g => isArrayIndexKey g.1) ++
    groups.filter fun g => !isArrayIndexKey g.1

/-- Stable insertion into a descending-by-score sorted list: the inserted
element (earlier in the original array) goes before later elements of equal
score, matching JS stable sort with comparator `(b._score||0)-(a._score||0)`. -/
def insertDesc (x : Hit) : List Hit → List Hit
  | [] => [x]
  | y :: rest => if scoreD y ≤ scoreD x then x :: y :: rest else y :: insertDesc x rest

/-- `chunks.sort((a, b) => (b._score || 0) - (a._score || 0))`. -/
def sortScoreDesc : List Hit → List Hit
  | [] => []
  | x :: rest => insertDesc x (sortScoreDesc rest)

/-- `chunks[0]` after the sort: the highest-score chunk, earliest first. -/
def bestChunk (chunks : List Hit) : Hit := (sortScoreDesc chunks).headD default

/-- The output loop: `out.push(chunks[0]); if (out.length >= limit) break;`
with `n` the number of representatives pushed so far. -/
def dedupeLoop (limit : Nat) : List (GroupKey × List Hit) → Nat → List Hit
  | [], _ => []
  | g :: rest, n =>
    if limit ≤ n + 1 then [bestChunk g.2]
    else bestChunk g.2 :: dedupeLoop limit rest (n + 1)

/-- `dedupeByArticle(hits, limit)`. -/
def dedupeByArticle (hits : List Hit) (limit : Nat) : List Hit :=
  dedupeLoop limit (valuesOrder (groupHits hits)) 0

theorem dedupeLoop_eq_take (limit : Nat) :
    ∀ (gs : List (GroupKey × List Hit)) (n : Nat),
    dedupeLoop limit gs n =
      (gs.map fun g => bestChunk g.2).take (if limit ≤ n + 1 then 1 else limit - n) := by
  intro gs
  induction gs with
  | nil => intro n; simp [dedupeLoop]
  | cons g rest ih =>
    intro n
    by_cases hl : limit ≤ n + 1
    · simp [dedupeLoop, hl]
    · rw [dedupeLoop, if_neg hl, ih (n + 1), List.map_cons]
      have harith : limit - n = ((if limit ≤ n + 1 + 1 then 1 else limit - (n + 1))) + 1 := by
        by_cases h2 : limit ≤ n + 2 <;> simp [h2] <;> omega
      rw [if_neg hl, harith, List.take_succ_cons]

theorem length_insertDesc (x : Hit) : ∀ (l : List Hit),
    (insertDesc x l).length = l.length + 1 := by
  intro l
  induction l with
  | nil => rfl
  | cons y rest ih =>
    by_cases h : scoreD y ≤ scoreD x <;> simp [insertDesc, h, ih]

theorem length_sortScoreDesc : ∀ (l : List Hit),
    (sortScoreDesc l).length = l.length := by
  intro l
  induction l with
  | nil => rfl
  | cons x rest ih => simp [sortScoreDesc, length_insertDesc, ih]

theorem bestChunk_singleton (x : Hit) : bestChunk [x] = x := rfl

theorem bestChunk_cons {rest : List Hit} (x : Hit) (hne : rest ≠ []) :
    bestChunk (x :: rest) =
      if scoreD (bestChunk rest) ≤ scoreD x then x else bestChunk rest := by
  have hlen : sortScoreDesc rest ≠ [] := by
    intro h
    exact hne (List.length_eq_zero.mp (by rw [← length_sortScoreDesc rest, h]; rfl))
  rcases hs : sortScoreDesc rest with _ | ⟨y, r⟩
  · exact absurd hs hlen
  · have hbest : bestChunk rest = y := by rw [bestChunk, hs]; rfl
    rw [bestChunk, sortScoreDesc, hs, insertDesc, hbest]
    by_cases h : scoreD y ≤ scoreD x <;> simp [h]

/-- The selected representative of a nonempty chunk list: it occurs in the
list, everything strictly before its occurrence has strictly smaller score,
and nothing in the list has a larger score.  This is exactly "highest score,
ties broken by original order". -/
theorem bestChunk_spec : ∀ (chunks : List Hit), chunks ≠ [] →
    ∃ pre post, chunks = pre ++ bestChunk chunks :: post ∧
      (∀ x ∈ pre, scoreD x < scoreD (bestChunk chunks)) ∧
      (∀ x ∈ chunks, scoreD x ≤ scoreD (bestChunk chunks)) := by
  intro chunks
  induction chunks with
  | nil => intro h; exact absurd rfl h
  | cons x rest ih =>
    intro _
    by_cases hrne : rest = []
    · subst hrne
      refine ⟨[], [], by simp [bestChunk_singleton], by simp, ?_⟩
      intro z hz
      have : z = x := by simpa using hz
      subst this
      simp [bestChunk_singleton]
    · obtain ⟨pre, post, heq, hlt, hle⟩ := ih hrne
      rw [bestChunk_cons x hrne]
      by_cases hb : scoreD (bestChunk rest) ≤ scoreD x
      · refine ⟨[], rest, by simp [hb], by simp, ?_⟩
        intro z hz
        rw [if_pos hb]
        rcases List.mem_cons.mp hz with rfl | hz
        · exact le_refl _
        · exact le_trans (hle z hz) hb
      · push_neg at hb
        refine ⟨x :: pre, post, ?_, ?_, ?_⟩
        · rw [if_neg (not_le.mpr hb), List.cons_append, ← heq]
        · intro z hz
          rw [if_neg (not_le.mpr hb)]
          rcases List.mem_cons.mp hz with rfl | hz
          · exact hb
          · exact hlt z hz
        · intro z hz
          rw [if_neg (not_le.mpr hb)]
          rcases List.mem_cons.mp hz with rfl | hz
          · exact le_of_lt hb
          · exact hle z hz

theorem bestChunk_mem {chunks : List Hit} (h : chunks ≠ []) :
    bestChunk chunks ∈ chunks := by
  obtain ⟨pre, post, heq, -, -⟩ := bestChunk_spec chunks h
  have hm : bestChunk chunks ∈ pre ++ bestChunk chunks :: post := by simp
  rwa [← heq] at hm

/-! #### Invariants of the grouping pass -/

def groupKeys (groups : List (GroupKey × List Hit)) : List GroupKey :=
  groups.map Prod.fst

theorem insertGroup_keys (k : GroupKey) (h : Hit) :
    ∀ (acc : List (GroupKey × List Hit)),
    (k ∈ groupKeys acc → groupKeys (insertGroup k h acc) = groupKeys acc) ∧
    (k ∉ groupKeys acc → groupKeys (insertGroup k h acc) = groupKeys acc ++ [k]) := by
  intro acc
  induction acc with
  | nil =>
    constructor
    · intro hm; simp [groupKeys] at hm
    · intro _; simp [insertGroup, groupKeys]
  | cons g rest ih =>
    rcases g with ⟨k2, chunks⟩
    by_cases hk : k2 = k
    · subst hk
      constructor
      · intro _; simp [insertGroup, groupKeys]
      · intro hm; simp [groupKeys] at hm
    · have h1 : insertGroup k h ((k2, chunks) :: rest) =
          (k2, chunks) :: insertGroup k h rest := by
        simp [insertGroup, hk]
      have h2 : ∀ {r : List (GroupKey × List Hit)},
          groupKeys ((k2, chunks) :: r) = k2 :: groupKeys r := fun {r} => rfl
      constructor
      · intro hm
        have hmr : k ∈ groupKeys rest := by
          rw [h2] at hm
          rcases List.mem_cons.mp hm with he | hmr
          · exact absurd he.symm hk
          · exact hmr
        rw [h1, h2, h2, ih.1 hmr]
      · intro hm
        have hmr : k ∉ groupKeys rest := fun hc => hm (by rw [h2]; exact List.mem_cons_of_mem _ hc)
        rw [h1, h2, h2, ih.2 hmr, List.cons_append]

theorem insertGroup_mem {k : GroupKey} {h : Hit} :
    ∀ {acc : List (GroupKey × List Hit)} {g : GroupKey × List Hit},
    g ∈ insertGroup k h acc →
      g ∈ acc ∨ (∃ chunks, (k, chunks) ∈ acc ∧ g = (k, chunks ++ [h])) ∨ g = (k, [h]) := by
  intro acc
  induction acc with
  | nil =>
    intro g hg
    simp only [insertGroup, List.mem_singleton] at hg
    exact Or.inr (Or.inr hg)
  | cons p rest ih =>
    intro g hg
    rcases p with ⟨k2, chunks⟩
    by_cases hk : k2 = k
    · subst hk
      have hg2 : g ∈ (k2, chunks ++ [h]) :: rest := by
        simpa [insertGroup] using hg
      rcases List.mem_cons.mp hg2 with rfl | hmem
      · exact Or.inr (Or.inl ⟨chunks, List.mem_cons_self _ _, rfl⟩)
      · exact Or.inl (List.mem_cons_of_mem _ hmem)
    · have hg2 : g ∈ (k2, chunks) :: insertGroup k h rest := by
        simpa [insertGroup, hk] using hg
      rcases List.mem_cons.mp hg2 with rfl | hg
      · exact Or.inl (List.mem_cons_self _ _)
      · rcases ih hg with h1 | h1 | h1
        · exact Or.inl (List.mem_cons_of_mem _ h1)
        · obtain ⟨ch, hch, hgch⟩ := h1
          exact Or.inr (Or.inl ⟨ch, List.mem_cons_of_mem _ hch, hgch⟩)
        · exact Or.inr (Or.inr h1)

/-- Invariant of the `byArticle` record: keys are pairwise distinct, every
bucket is nonempty and member-wise satisfies `P`, a bucket keyed by a truthy
article id holds only hits carrying exactly that id, and every
random-keyed bucket is a singleton holding one falsy-id hit, its counter
below the current fresh counter. -/
def GInv (groups : List (GroupKey × List Hit)) (fresh : Nat) (P : Hit → Prop) : Prop :=
  (groupKeys groups).Nodup ∧
  (∀ p ∈ groups, p.2 ≠ [] ∧ ∀ c ∈ p.2, P c) ∧
  (∀ a chunks, (Sum.inl a, chunks) ∈ groups → a ≠ [] ∧ ∀ c ∈ chunks, articleId c = some a) ∧
  (∀ n chunks, (Sum.inr n, chunks) ∈ groups →
    n < fresh ∧ ∃ c, chunks = [c] ∧ (articleId c = none ∨ articleId c = some []))

theorem GInv_mono {groups : List (GroupKey × List Hit)} {fresh fresh2 : Nat}
    {P : Hit → Prop} (h : GInv groups fresh P) (hle : fresh ≤ fresh2) :
    GInv groups fresh2 P := by
  obtain ⟨h1, h2, h3, h4⟩ := h
  refine ⟨h1, h2, h3, fun n chunks hm => ?_⟩
  obtain ⟨hn, hc⟩ := h4 n chunks hm
  exact ⟨Nat.lt_of_lt_of_le hn hle, hc⟩

theorem GInv_insert_inl {groups : List (GroupKey × List Hit)} {fresh : Nat}
    {P : Hit → Prop} {a : List Char} {h : Hit}
    (hinv : GInv groups fresh P) (hid : articleId h = some a) (hne : a ≠ [])
    (hP : P h) : GInv (insertGroup (Sum.inl a) h groups) fresh P := by
  obtain ⟨h1, h2, h3, h4⟩ := hinv
  refine ⟨?_, ?_, ?_, ?_⟩
  · rcases Classical.em (Sum.inl a ∈ groupKeys groups) with hm | hm
    · rw [(insertGroup_keys _ h groups).1 hm]; exact h1
    · rw [(insertGroup_keys _ h groups).2 hm]
      rw [List.nodup_append]
      exact ⟨h1, List.nodup_singleton _, by simpa using hm⟩
  · intro p hp
    rcases insertGroup_mem hp with hp1 | ⟨chunks, hc, rfl⟩ | rfl
    · exact h2 p hp1
    · obtain ⟨hne2, hall⟩ := h2 _ hc
      refine ⟨by simp, fun c hcc => ?_⟩
      rcases List.mem_append.mp hcc with hcc | hcc
      · exact hall c hcc
      · rw [List.mem_singleton.mp hcc]; exact hP
    · exact ⟨by simp, fun c hcc => by rw [List.mem_singleton.mp hcc]; exact hP⟩
  · intro b chunks hm
    rcases insertGroup_mem hm with hp1 | ⟨ch, hc, he⟩ | he
    · exact h3 b chunks hp1
    · have hab : b = a := by simpa using congrArg Prod.fst he
      subst hab
      have hch : chunks = ch ++ [h] := by simpa using congrArg Prod.snd he
      subst hch
      obtain ⟨hne2, hall⟩ := h3 b ch hc
      refine ⟨hne2, fun c hcc => ?_⟩
      rcases List.mem_append.mp hcc with hcc | hcc
      · exact hall c hcc
      · rw [List.mem_singleton.mp hcc]
        exact hid
    · have hab : b = a := by simpa using congrArg Prod.fst he
      subst hab
      have hch : chunks = [h] := by simpa using congrArg Prod.snd he
      subst hch
      exact ⟨hne, fun c hcc => by rw [List.mem_singleton.mp hcc]; exact hid⟩
  · intro n chunks hm
    rcases insertGroup_mem hm with hp1 | ⟨ch, hc, he⟩ | he
    · exact h4 n chunks hp1
    · exact absurd (congrArg Prod.fst he) (by simp)
    · exact absurd (congrArg Prod.fst he) (by simp)

theorem GInv_insert_inr {groups : List (GroupKey × List Hit)} {fresh : Nat}
    {P : Hit → Prop} {h : Hit}
    (hinv : GInv groups fresh P)
    (hid : articleId h = none ∨ articleId h = some []) (hP : P h) :
    GInv (insertGroup (Sum.inr fresh) h groups) (fresh + 1) P := by
  obtain ⟨h1, h2, h3, h4⟩ := hinv
  have hnotmem : Sum.inr fresh ∉ groupKeys groups := by
    intro hm
    obtain ⟨⟨k, chunks⟩, hmem, hk⟩ := List.mem_map.mp hm
    subst hk
    exact absurd (h4 fresh chunks hmem).1 (Nat.lt_irrefl fresh)
  have hkeys := (insertGroup_keys (Sum.inr fresh) h groups).2 hnotmem
  have hform : insertGroup (Sum.inr fresh) h groups = groups ++ [(Sum.inr fresh, [h])] := by
    clear hkeys h1 h2 h3 h4
    induction groups with
    | nil => rfl
    | cons p rest ih =>
      rcases p with ⟨k2, chunks⟩
      have hk2 : k2 ≠ Sum.inr fresh := by
        intro he
        exact hnotmem (by rw [← he]; exact List.mem_map_of_mem _ (List.mem_cons_self _ _))
      rw [List.cons_append, insertGroup, if_neg hk2,
        ih (fun hm => hnotmem (List.mem_cons_of_mem _ hm))]
  rw [hform]
  refine ⟨?_, ?_, ?_, ?_⟩
  · have : groupKeys (groups ++ [(Sum.inr fresh, [h])]) = groupKeys groups ++ [Sum.inr fresh] := by
      simp [groupKeys]
    rw [this, List.nodup_append]
    exact ⟨h1, List.nodup_singleton _, by simpa using hnotmem⟩
  · intro p hp
    rcases List.mem_append.mp hp with hp1 | hp1
    · exact h2 p hp1
    · rw [List.mem_singleton.mp hp1]
      exact ⟨by simp, fun c hcc => by rw [List.mem_singleton.mp hcc]; exact hP⟩
  · intro a chunks hm
    rcases List.mem_append.mp hm with hp1 | hp1
    · exact h3 a chunks hp1
    · exact absurd (congrArg Prod.fst (List.mem_singleton.mp hp1)) (by simp)
  · intro n chunks hm
    rcases List.mem_append.mp hm with hp1 | hp1
    · obtain ⟨hn, hc⟩ := h4 n chunks hp1
      exact ⟨Nat.lt_succ_of_lt hn, hc⟩
    · have he := List.mem_singleton.mp hp1
      have hn : n = fresh := by simpa using congrArg Prod.fst he
      have hc : chunks = [h] := by simpa using congrArg Prod.snd he
      subst hn; subst hc
      exact ⟨Nat.lt_succ_self _, h, rfl, hid⟩

theorem groupHitsAux_inv (P : Hit → Prop) :
    ∀ (todo : List Hit) (acc : List (GroupKey × List Hit)) (fresh : Nat),
    GInv acc fresh P → (∀ h ∈ todo, P h) →
    ∃ fresh2, fresh ≤ fresh2 ∧ GInv (groupHitsAux todo acc fresh) fresh2 P := by
  intro todo
  induction todo with
  | nil => intro acc fresh hinv _; exact ⟨fresh, le_refl _, hinv⟩
  | cons h rest ih =>
    intro acc fresh hinv hP
    have hPh : P h := hP h (List.mem_cons_self _ _)
    have hPrest : ∀ x ∈ rest, P x := fun x hx => hP x (List.mem_cons_of_mem _ hx)
    rcases hidc : articleId h with _ | a
    · have hstep : groupHitsAux (h :: rest) acc fresh =
          groupHitsAux rest (insertGroup (Sum.inr fresh) h acc) (fresh + 1) := by
        simp [groupHitsAux, keyOf, hidc]
      rw [hstep]
      obtain ⟨f2, hf2, hinv2⟩ := ih _ (fresh + 1)
        (GInv_insert_inr hinv (Or.inl hidc) hPh) hPrest
      exact ⟨f2, le_trans (Nat.le_succ _) hf2, hinv2⟩
    · by_cases hae : a = []
      · subst hae
        have hstep : groupHitsAux (h :: rest) acc fresh =
            groupHitsAux rest (insertGroup (Sum.inr fresh) h acc) (fresh + 1) := by
          simp [groupHitsAux, keyOf, hidc]
        rw [hstep]
        obtain ⟨f2, hf2, hinv2⟩ := ih _ (fresh + 1)
          (GInv_insert_inr hinv (Or.inr hidc) hPh) hPrest
        exact ⟨f2, le_trans (Nat.le_succ _) hf2, hinv2⟩
      · have hstep : groupHitsAux (h :: rest) acc fresh =
            groupHitsAux rest (insertGroup (Sum.inl a) h acc) fresh := by
          simp [groupHitsAux, keyOf, hidc, hae]
        rw [hstep]
        exact ih _ fresh (GInv_insert_inl hinv hidc hae hPh) hPrest

theorem groupHits_inv (hits : List Hit) :
    ∃ fresh2, GInv (groupHits hits) fresh2 (fun h => h ∈ hits) := by
  obtain ⟨f2, -, hinv⟩ := groupHitsAux_inv (fun h => h ∈ hits) hits [] 0
    ⟨List.nodup_nil, by simp, by simp, by simp⟩ (fun h hh => hh)
  exact ⟨f2, hinv⟩

/-- The bucket stored under key `k` (first entry with that key, as JS
property lookup). -/
def assocChunks (groups : List (GroupKey × List Hit)) (k : GroupKey) : List Hit :=
  ((groups.find? fun g => decide (g.1 = k)).map Prod.snd).getD []

theorem assocChunks_nil (k : GroupKey) : assocChunks [] k = [] := rfl

theorem assocChunks_cons_eq {k : GroupKey} (chunks : List Hit)
    (rest : List (GroupKey × List Hit)) :
    assocChunks ((k, chunks) :: rest) k = chunks := by
  unfold assocChunks
  rw [List.find?_cons_of_pos _ (by simp)]
  rfl

theorem assocChunks_cons_ne {k k2 : GroupKey} (chunks : List Hit)
    (rest : List (GroupKey × List Hit)) (hne : k ≠ k2) :
    assocChunks ((k, chunks) :: rest) k2 = assocChunks rest k2 := by
  unfold assocChunks
  rw [List.find?_cons_of_neg _ (by simp [hne])]

theorem assocChunks_insert (k : GroupKey) (h : Hit) :
    ∀ (acc : List (GroupKey × List Hit)) (k2 : GroupKey),
    assocChunks (insertGroup k h acc) k2 =
      if k2 = k then assocChunks acc k ++ [h] else assocChunks acc k2 := by
  intro acc
  induction acc with
  | nil =>
    intro k2
    rcases Classical.em (k2 = k) with he | he
    · subst he
      rw [if_pos rfl]
      show assocChunks [(k2, [h])] k2 = assocChunks [] k2 ++ [h]
      rw [assocChunks_cons_eq, assocChunks_nil]
      rfl
    · rw [if_neg he]
      show assocChunks [(k, [h])] k2 = assocChunks [] k2
      rw [assocChunks_cons_ne _ _ (fun hc => he hc.symm), assocChunks_nil]
  | cons p rest ih =>
    intro k2
    rcases p with ⟨k3, chunks⟩
    rcases Classical.em (k3 = k) with he3 | he3
    · subst he3
      have hins : insertGroup k3 h ((k3, chunks) :: rest) =
          (k3, chunks ++ [h]) :: rest := by
        simp [insertGroup]
      rw [hins]
      rcases Classical.em (k2 = k3) with he2 | he2
      · subst he2
        rw [if_pos rfl, assocChunks_cons_eq, assocChunks_cons_eq]
      · rw [if_neg he2, assocChunks_cons_ne _ _ (fun hc => he2 hc.symm),
          assocChunks_cons_ne _ _ (fun hc => he2 hc.symm)]
    · have hins : insertGroup k h ((k3, chunks) :: rest) =
          (k3, chunks) :: insertGroup k h rest := by
        simp [insertGroup, he3]
      rw [hins]
      rcases Classical.em (k2 = k3) with he2 | he2
      · subst he2
        rw [if_neg (fun hc => he3 hc), assocChunks_cons_eq, assocChunks_cons_eq]
      · rw [assocChunks_cons_ne _ _ (fun hc => he2 hc.symm), ih k2]
        rcases Classical.em (k2 = k) with hek | hek
        · rw [if_pos hek, if_pos hek, assocChunks_cons_ne _ _ (fun hc => he3 hc)]
        · rw [if_neg hek, if_neg hek,
            assocChunks_cons_ne _ _ (fun hc => he2 hc.symm)]

theorem assocChunks_groupHitsAux :
    ∀ (todo : List Hit) (acc : List (GroupKey × List Hit)) (fresh : Nat)
      (a : List Char), a ≠ [] →
    assocChunks (groupHitsAux todo acc fresh) (Sum.inl a) =
      assocChunks acc (Sum.inl a) ++
        todo.filter (fun h => decide (articleId h = some a)) := by
  intro todo
  induction todo with
  | nil => intro acc fresh a _; simp [groupHitsAux]
  | cons h rest ih =>
    intro acc fresh a hane
    rcases hidc : articleId h with _ | b
    · have hstep : groupHitsAux (h :: rest) acc fresh =
          groupHitsAux rest (insertGroup (Sum.inr fresh) h acc) (fresh + 1) := by
        simp [groupHitsAux, keyOf, hidc]
      rw [hstep, ih _ _ a hane, assocChunks_insert, if_neg (by simp)]
      have hfilter : (h :: rest).filter (fun x => decide (articleId x = some a)) =
          rest.filter (fun x => decide (articleId x = some a)) := by
        rw [List.filter_cons_of_neg (by simp [hidc])]
      rw [hfilter]
    · by_cases hbe : b = []
      · subst hbe
        have hstep : groupHitsAux (h :: rest) acc fresh =
            groupHitsAux rest (insertGroup (Sum.inr fresh) h acc) (fresh + 1) := by
          simp [groupHitsAux, keyOf, hidc]
        rw [hstep, ih _ _ a hane, assocChunks_insert, if_neg (by simp)]
        have hfilter : (h :: rest).filter (fun x => decide (articleId x = some a)) =
            rest.filter (fun x => decide (articleId x = some a)) := by
          rw [List.filter_cons_of_neg (by simp [hidc]; intro hc; exact hane (by simp [hc]))]
        rw [hfilter]
      · have hstep : groupHitsAux (h :: rest) acc fresh =
            groupHitsAux rest (insertGroup (Sum.inl b) h acc) fresh := by
          simp [groupHitsAux, keyOf, hidc, hbe]
        rw [hstep, ih _ _ a hane, assocChunks_insert]
        rcases Classical.em (a = b) with hab | hab
        · subst hab
          rw [if_pos rfl]
          have hfilter : (h :: rest).filter (fun x => decide (articleId x = some a)) =
              h :: rest.filter (fun x => decide (articleId x = some a)) := by
            rw [List.filter_cons_of_pos (by simp [hidc])]
          rw [hfilter, List.append_assoc, List.singleton_append]
        · rw [if_neg (by simpa using hab)]
          have hfilter : (h :: rest).filter (fun x => decide (articleId x = some a)) =
              rest.filter (fun x => decide (articleId x = some a)) := by
            rw [List.filter_cons_of_neg (by simp [hidc]; intro hc; exact hab (by simp [hc]))]
          rw [hfilter]

/-- A truthy-keyed bucket of `byArticle` holds exactly the input hits
carrying that article id, in input order. -/
theorem groupHits_inl_chunks (hits : List Hit) {a : List Char} (hane : a ≠ []) :
    assocChunks (groupHits hits) (Sum.inl a) =
      hits.filter (fun h => decide (articleId h = some a)) := by
  have := assocChunks_groupHitsAux hits [] 0 a hane
  simpa [groupHits, assocChunks_nil] using this

theorem assocChunks_of_mem {groups : List (GroupKey × List Hit)}
    (hnd : (groupKeys groups).Nodup) {k : GroupKey} {chunks : List Hit}
    (hm : (k, chunks) ∈ groups) : assocChunks groups k = chunks := by
  induction groups with
  | nil => simp at hm
  | cons p rest ih =>
    rcases p with ⟨k2, ch2⟩
    have hnd1 : k2 ∉ groupKeys rest := by
      have := hnd
      simp only [groupKeys, List.map_cons, List.nodup_cons] at this
      exact this.1
    have hnd2 : (groupKeys rest).Nodup := by
      have := hnd
      simp only [groupKeys, List.map_cons, List.nodup_cons] at this
      exact this.2
    rcases List.mem_cons.mp hm with he | hm2
    · have hk : k2 = k := (congrArg Prod.fst he).symm
      have hc : ch2 = chunks := (congrArg Prod.snd he).symm
      subst hk; subst hc
      exact assocChunks_cons_eq _ _
    · have hk2 : k2 ≠ k := by
        intro he
        subst he
        exact hnd1 (List.mem_map_of_mem _ hm2)
      rw [assocChunks_cons_ne _ _ hk2]
      exact ih hnd2 hm2

/-! #### Enumeration order of `Object.values` -/

theorem insertAscBy_mem {g x : GroupKey × List Hit} :
    ∀ {l : List (GroupKey × List Hit)}, x ∈ insertAscBy g l → x = g ∨ x ∈ l := by
  intro l
  induction l with
  | nil => intro hx; simp [insertAscBy] at hx; exact Or.inl hx
  | cons g2 rest ih =>
    intro hx
    by_cases hlt : keyNum g.1 < keyNum g2.1
    · rw [insertAscBy, if_pos hlt] at hx
      rcases List.mem_cons.mp hx with rfl | hx
      · exact Or.inl rfl
      · exact Or.inr hx
    · rw [insertAscBy, if_neg hlt] at hx
      rcases List.mem_cons.mp hx with rfl | hx
      · exact Or.inr (List.mem_cons_self _ _)
      · rcases ih hx with h1 | h1
        · exact Or.inl h1
        · exact Or.inr (List.mem_cons_of_mem _ h1)

theorem insertAscBy_perm (g : GroupKey × List Hit) :
    ∀ (l : List (GroupKey × List Hit)), (insertAscBy g l).Perm (g :: l) := by
  intro l
  induction l with
  | nil => simp [insertAscBy]
  | cons g2 rest ih =>
    by_cases hlt : keyNum g.1 < keyNum g2.1
    · simp [insertAscBy, hlt]
    · rw [insertAscBy, if_neg hlt]
      exact List.Perm.trans (List.Perm.cons g2 ih) (List.Perm.swap g g2 rest)

theorem sortKeysAsc_perm : ∀ (l : List (GroupKey × List Hit)),
    (sortKeysAsc l).Perm l := by
  intro l
  induction l with
  | nil => simp [sortKeysAsc]
  | cons g rest ih =>
    exact List.Perm.trans (insertAscBy_perm g (sortKeysAsc rest)) (List.Perm.cons g ih)

theorem valuesOrder_perm (groups : List (GroupKey × List Hit)) :
    (valuesOrder groups).Perm groups := by
  unfold valuesOrder
  exact List.Perm.trans
    (List.Perm.append_right _ (sortKeysAsc_perm _))
    (List.filter_append_perm _ groups)

theorem valuesOrder_mem {groups : List (GroupKey × List Hit)}
    {g : GroupKey × List Hit} (hm : g ∈ valuesOrder groups) : g ∈ groups :=
  (valuesOrder_perm groups).subset hm

theorem valuesOrder_keys_nodup {groups : List (GroupKey × List Hit)}
    (hnd : (groupKeys groups).Nodup) : (groupKeys (valuesOrder groups)).Nodup := by
  have hp : (groupKeys (valuesOrder groups)).Perm (groupKeys groups) :=
    (valuesOrder_perm groups).map Prod.fst
  exact hp.nodup_iff.mpr hnd

theorem valuesOrder_of_no_index {groups : List (GroupKey × List Hit)}
    (h : ∀ g ∈ groups, isArrayIndexKey g.1 = false) : valuesOrder groups = groups := by
  unfold valuesOrder
  have h1 : groups.filter (fun g => isArrayIndexKey g.1) = [] := by
    rw [List.filter_eq_nil]
    intro g hg
    simp [h g hg]
  have h2 : groups.filter (fun g => !isArrayIndexKey g.1) = groups := by
    rw [List.filter_eq_self]
    intro g hg
    simp [h g hg]
  rw [h1, h2]
  rfl

/-! ### Context builder

`generateAnswerWithOpenAI` (`src/web/src/routes/api/chat/+server.ts`, lines
213-228) assembles the prompt context: per hit a block
`[i+1] <title>\n<content.slice(0, perSnippet)>`, a running total `used`
incremented by `block.length + 8` (separator allowance), a `break` as soon
as `used + block.length > MAX_CONTEXT_CHARS`, and a final join with the
7-character separator `\n\n---\n\n`.  The source fixes `perSnippet = 1200`;
it is kept as a parameter `P` because the specification quantifies over the
per-passage cap. -/

def DEFAULT_TOP_K : Nat := 4

def MAX_CONTEXT_CHARS : Nat := 3600

def perSnippetDefault : Nat := 1200

/-- `'Untitled'`. -/
def untitled : List Char := 'U' :: 'n' :: 't' :: 'i' :: 't' :: 'l' :: 'e' :: 'd' :: []

/-- The block for hit `h` at zero-based index `i`:
`[${i + 1}] ${title}\n${snippet}`. -/
def mkBlock (P : Nat) (i : Nat) (h : Hit) : List Char :=
  let src := sourceOf h
  let title := src.title.getD untitled
  let content := src.content.getD []
  let snippet := content.take P
  '[' :: natDigits (i + 1) ++ ']' :: ' ' :: title ++ '\n' :: snippet

/-- The loop with running totals: index `i`, used-characters counter `used`. -/
def buildBlocks (P : Nat) : List Hit → Nat → Nat → List (List Char)
  | [], _, _ => []
  | h :: rest, i, used =>
    let block := mkBlock P i h
    if MAX_CONTEXT_CHARS < used + block.length then []
    else block :: buildBlocks P rest (i + 1) (used + block.length + 8)

/-- All blocks, unbounded (for the prefix statement). -/
def blocksAllFrom (P : Nat) : Nat → List Hit → List (List Char)
  | _, [] => []
  | i, h :: rest => mkBlock P i h :: blocksAllFrom P (i + 1) rest

/-- `snippets.join('\n\n---\n\n')`. -/
def contextSep : List Char := '\n' :: '\n' :: '-' :: '-' :: '-' :: '\n' :: '\n' :: []

def joinSep (sep : List Char) : List (List Char) → List Char
  | [] => []
  | [b] => b
  | b :: b2 :: rest => b ++ sep ++ joinSep sep (b2 :: rest)

/-- The assembled context string. -/
def buildContext (P : Nat) (hits : List Hit) : List Char :=
  joinSep contextSep (buildBlocks P hits 0 0)

theorem joinSep_length (sep : List Char) : ∀ (l : List (List Char)), l ≠ [] →
    (joinSep sep l).length =
      (l.map List.length).sum + sep.length * (l.length - 1) := by
  intro l
  induction l with
  | nil => intro h; exact absurd rfl h
  | cons b rest ih =>
    intro _
    rcases rest with _ | ⟨b2, r⟩
    · simp [joinSep]
    · have hr : (joinSep sep (b :: b2 :: r)) = b ++ sep ++ joinSep sep (b2 :: r) := rfl
      have h2 : sep.length * ((b :: b2 :: r).length - 1)
          = sep.length * ((b2 :: r).length - 1) + sep.length := by
        simp only [List.length_cons]
        have he : r.length + 1 + 1 - 1 = (r.length + 1 - 1) + 1 := by omega
        rw [he, Nat.mul_succ]
      rw [hr]
      simp only [List.length_append]
      rw [ih (by simp), h2]
      simp only [List.map_cons, List.sum_cons]
      omega

theorem buildBlocks_budget (P : Nat) : ∀ (hits : List Hit) (i used : Nat),
    buildBlocks P hits i used = [] ∨
      used + ((buildBlocks P hits i used).map List.length).sum +
        8 * (buildBlocks P hits i used).length ≤ MAX_CONTEXT_CHARS + 8 := by
  intro hits
  induction hits with
  | nil => intro i used; exact Or.inl rfl
  | cons h rest ih =>
    intro i used
    by_cases hover : MAX_CONTEXT_CHARS < used + (mkBlock P i h).length
    · exact Or.inl (by rw [buildBlocks, if_pos hover])
    · right
      rw [buildBlocks, if_neg hover]
      rcases ih (i + 1) (used + (mkBlock P i h).length + 8) with hnil | hbound
      · rw [hnil]
        simp only [List.map_cons, List.sum_cons, List.map_nil, List.sum_nil,
          List.length_cons, List.length_nil]
        omega
      · simp only [List.map_cons, List.sum_cons, List.length_cons]
        omega

theorem buildBlocks_take_eq (P : Nat) : ∀ (hits : List Hit) (i used : Nat),
    ∃ m, buildBlocks P hits i used = (blocksAllFrom P i hits).take m := by
  intro hits
  induction hits with
  | nil => intro i used; exact ⟨0, rfl⟩
  | cons h rest ih =>
    intro i used
    by_cases hover : MAX_CONTEXT_CHARS < used + (mkBlock P i h).length
    · exact ⟨0, by rw [buildBlocks, if_pos hover]; rfl⟩
    · obtain ⟨m, hm⟩ := ih (i + 1) (used + (mkBlock P i h).length + 8)
      refine ⟨m + 1, ?_⟩
      rw [buildBlocks, if_neg hover, blocksAllFrom, List.take_succ_cons, hm]

theorem buildContext_length (P : Nat) (hits : List Hit) :
    (buildContext P hits).length ≤ MAX_CONTEXT_CHARS := by
  unfold buildContext
  rcases buildBlocks_budget P hits 0 0 with hnil | hbound
  · rw [hnil]
    simp [joinSep, MAX_CONTEXT_CHARS]
  · rcases hb : buildBlocks P hits 0 0 with _ | ⟨b, rest⟩
    · simp [joinSep, MAX_CONTEXT_CHARS]
    · rw [← hb]
      rw [joinSep_length contextSep _ (by rw [hb]; simp)]
      rw [hb] at hbound ⊢
      have hsep : contextSep.length = 7 := rfl
      rw [hsep]
      simp only [List.length_cons] at hbound ⊢
      omega

/-! ### Citation formatting and snippet extraction

`formatCitations` and `extractFullSentence`
(`src/web/src/routes/api/chat/+server.ts`, lines 262-301). -/

structure Citation where
  id : List Char
  title : List Char
  url : Option (List Char)
  snippet : Option (List Char)
deriving DecidableEq

/-- JS `x || y` on strings: `y` when `x` is empty, else `x`. -/
def jsOr (a b : List Char) : List Char := if a = [] then b else a

/-- `['.', '!', '?'].includes(c)`. -/
def sentencePunct (c : Char) : Bool := c = '.' || c = '!' || c = '?'

def charAt (s : List Char) (i : Nat) : Option Char := (s.drop i).head?

/-- `fullContent.indexOf(highlight)`: the least index where `sub` occurs in
`s`, `none` standing for `-1`. -/
def indexOfSub (s sub : List Char) : Option Nat :=
  (List.range (s.length + 1)).find? fun i => decide ((s.drop i).take sub.length = sub)

/-- The backward scan for a sentence start:
`for (i = idx-1; i >= 0 && start-i < 100; i--) if punct { start = i+1; break }`
(`start` equals `idx` while scanning, so positions `idx-1` down to `idx-99`
are visited). -/
def backScan (content : List Char) (idx : Nat) : Nat :=
  match ((List.range 99).filterMap fun d =>
      if d < idx then some (idx - 1 - d) else none).find?
      (fun i => (charAt content i).any sentencePunct) with
  | some i => i + 1
  | none => idx

/-- The forward scan for a sentence end:
`for (i = end; i < len && i - idx < 200; i++) if punct { end = i+1; break }`
with the initial `end = idx + highlight.length`. -/
def fwdScan (content : List Char) (idx hlLen : Nat) : Nat :=
  let e0 := idx + hlLen
  let stop := min content.length (idx + 200)
  match (List.range' e0 (stop - e0)).find?
      (fun i => (charAt content i).any sentencePunct) with
  | some i => i + 1
  | none => e0

/-- JS `String.prototype.trim` (modelled with the Lean whitespace predicate;
the difference concerns exotic Unicode spaces only). -/
def trimChars (s : List Char) : List Char :=
  ((s.dropWhile Char.isWhitespace).reverse.dropWhile Char.isWhitespace).reverse

/-- The horizontal-ellipsis character appended on truncation. -/
def ellipsisChar : Char := Char.ofNat 8230

def extractFullSentence (highlight fullContent : List Char) (maxLen : Nat) :
    Option (List Char) :=
  if highlight = [] ∨ fullContent = [] then none
  else
    match indexOfSub fullContent highlight with
    | none => some (highlight.take maxLen)
    | some idx =>
      let start := backScan fullContent idx
      let e := fwdScan fullContent idx highlight.length
      let sentence := trimChars ((fullContent.drop start).take (e - start))
      some (if maxLen < sentence.length
        then sentence.take maxLen ++ [ellipsisChar] else sentence)

/-- One Citation: `{ id: String(idx + 1), title, url, snippet }` with
`highlight = hit?.highlight?.content?.[0] || source.content || ''` and
`snippet = extractFullSentence(highlight, source.content || '', 400)`. -/
def citationOf (idx : Nat) (h : Hit) : Citation :=
  let src := sourceOf h
  let fullContent := src.content.getD []
  let highlight := jsOr ((h.highlightContent.getD []).headD []) (jsOr fullContent [])
  { id := natDigits (idx + 1)
    title := src.title.getD untitled
    url := src.url
    snippet := extractFullSentence highlight fullContent 400 }

def formatCitationsAux : Nat → List Hit → List Citation
  | _, [] => []
  | idx, h :: rest => citationOf idx h :: formatCitationsAux (idx + 1) rest

/-- `formatCitations(hits)`: `hits.map((hit, idx) => ...)`. -/
def formatCitations (hits : List Hit) : List Citation := formatCitationsAux 0 hits

theorem formatCitationsAux_length : ∀ (hits : List Hit) (idx : Nat),
    (formatCitationsAux idx hits).length = hits.length := by
  intro hits
  induction hits with
  | nil => intro idx; rfl
  | cons h rest ih =>
    intro idx
    simp [formatCitationsAux, ih]

theorem formatCitationsAux_get : ∀ (hits : List Hit) (idx i : Nat)
    (hi : i < (formatCitationsAux idx hits).length) (hi2 : i < hits.length),
    (formatCitationsAux idx hits).get ⟨i, hi⟩ = citationOf (idx + i) (hits.get ⟨i, hi2⟩) := by
  intro hits
  induction hits with
  | nil => intro idx i hi hi2; simp at hi2
  | cons h rest ih =>
    intro idx i hi hi2
    rcases i with _ | i
    · simp [formatCitationsAux]
    · have hi3 : i < (formatCitationsAux (idx + 1) rest).length := by
        simp only [formatCitationsAux, List.length_cons] at hi
        omega
      have hi4 : i < rest.length := by
        simp only [List.length_cons] at hi2
        omega
      have hstep : (formatCitationsAux idx (h :: rest)).get ⟨i + 1, hi⟩ =
          (formatCitationsAux (idx + 1) rest).get ⟨i, hi3⟩ := rfl
      rw [hstep, ih (idx + 1) i hi3 hi4]
      congr 1
      omega

theorem jsOr_nil_right (a : List Char) : jsOr a [] = a := by
  unfold jsOr
  rcases Classical.em (a = []) with h | h <;> simp [h]

theorem extractFullSentence_eq_none_iff (hl c : List Char) (maxLen : Nat) :
    extractFullSentence hl c maxLen = none ↔ (hl = [] ∨ c = []) := by
  constructor
  · intro h
    by_contra hcon
    push_neg at hcon
    rw [extractFullSentence, if_neg (by tauto)] at h
    rcases hio : indexOfSub c hl with _ | idx <;> rw [hio] at h <;> simp at h
  · intro h
    rw [extractFullSentence, if_pos h]

/-- The snippet of a formatted citation is absent exactly when the content of the hit is empty; in
particular a hit with a non-empty highlight but empty content still gets
no snippet. -/
theorem citationOf_snippet_none_iff (idx : Nat) (h : Hit) :
    (citationOf idx h).snippet = none ↔ (sourceOf h).content.getD [] = [] := by
  show extractFullSentence
      (jsOr ((h.highlightContent.getD []).headD []) (jsOr ((sourceOf h).content.getD []) []))
      ((sourceOf h).content.getD []) 400 = none ↔ _
  rw [extractFullSentence_eq_none_iff, jsOr_nil_right]
  constructor
  · intro hc
    rcases hc with hc | hc
    · rw [jsOr] at hc
      rcases Classical.em ((h.highlightContent.getD []).headD [] = []) with hh | hh
      · rwa [if_pos hh] at hc
      · rw [if_neg hh] at hc
        exact absurd hc hh
    · exact hc
  · intro hc
    exact Or.inr hc

/-! ### Embedding client response probing

`embedQuery` (`src/web/src/routes/api/chat/+server.ts`, lines 114-126).
The JSON payload is modelled by `JVal`; `jget` is optional member access
(`x?.k`), `jidx` optional index access (`x?.[i]`). -/

inductive JVal where
  | jnull
  | jbool (b : Bool)
  | jnum (q : Rat)
  | jstr (s : List Char)
  | jarr (elems : List JVal)
  | jobj (fields : List (List Char × JVal))

def jget : JVal → List Char → Option JVal
  | .jobj fields, k => (fields.find? fun f => decide (f.1 = k)).map Prod.snd
  | _, _ => none

def jidx : JVal → Nat → Option JVal
  | .jarr l, i => l.get? i
  | _, _ => none

def pvKey : List Char := 'p' :: 'r' :: 'e' :: 'd' :: 'i' :: 'c' :: 't' :: 'e' :: 'd' ::
  '_' :: 'v' :: 'a' :: 'l' :: 'u' :: 'e' :: []

def teKey : List Char := 't' :: 'e' :: 'x' :: 't' :: '_' :: 'e' :: 'm' :: 'b' :: 'e' ::
  'd' :: 'd' :: 'i' :: 'n' :: 'g' :: []

def embKey : List Char := 'e' :: 'm' :: 'b' :: 'e' :: 'd' :: 'd' :: 'i' :: 'n' :: 'g' :: []

def missingVectorError : List Char :=
  ('E' :: 'm' :: 'b' :: 'e' :: 'd' :: 'd' :: 'i' :: 'n' :: 'g' :: ' ' :: []) ++
  ('r' :: 'e' :: 's' :: 'p' :: 'o' :: 'n' :: 's' :: 'e' :: ' ' :: []) ++
  ('m' :: 'i' :: 's' :: 's' :: 'i' :: 'n' :: 'g' :: ' ' :: []) ++
  ('v' :: 'e' :: 'c' :: 't' :: 'o' :: 'r' :: [])

/-- The response-parsing tail of `embedQuery` on a decoded success payload:
probe `data?.predicted_value` (flat array returned unchanged, array-of-array
unwrapped to its first element), then `data?.text_embedding?.[0]?.embedding`,
else throw `Embedding response missing vector`. -/
def embedQueryParse (data : JVal) : Except (List Char) (List JVal) :=
  match jget data pvKey with
  | some (.jarr l) =>
    match l with
    | .jarr l0 :: _ => .ok l0
    | _ => .ok l
  | _ =>
    match ((jget data teKey).bind fun v => jidx v 0).bind fun v => jget v embKey with
    | some (.jarr te) => .ok te
    | _ => .error missingVectorError

/-! ### Batch answer generation

`generateAnswerWithOpenAI` (lines 197-260): an empty evidence set
short-circuits to a fixed no-information answer before any network call;
otherwise the OpenAI chat completion is invoked — modelled as an oracle
`llm` from the user-message content to the generated text. -/

def quoteChar : Char := Char.ofNat 34

def apostropheChar : Char := Char.ofNat 39

/-- `I couldn(apostrophe)t find any relevant information in the knowledge base to
answer your question: "${question}"` (the apostrophe and the quotes are
spelled via character codes). -/
def noInfoAnswer (question : List Char) : List Char :=
  ('I' :: ' ' :: 'c' :: 'o' :: 'u' :: 'l' :: 'd' :: 'n' :: apostropheChar :: 't' :: ' ' :: []) ++
  ('f' :: 'i' :: 'n' :: 'd' :: ' ' :: 'a' :: 'n' :: 'y' :: ' ' :: []) ++
  ('r' :: 'e' :: 'l' :: 'e' :: 'v' :: 'a' :: 'n' :: 't' :: ' ' :: []) ++
  ('i' :: 'n' :: 'f' :: 'o' :: 'r' :: 'm' :: 'a' :: 't' :: 'i' :: 'o' :: 'n' :: ' ' :: []) ++
  ('i' :: 'n' :: ' ' :: 't' :: 'h' :: 'e' :: ' ' :: []) ++
  ('k' :: 'n' :: 'o' :: 'w' :: 'l' :: 'e' :: 'd' :: 'g' :: 'e' :: ' ' :: []) ++
  ('b' :: 'a' :: 's' :: 'e' :: ' ' :: 't' :: 'o' :: ' ' :: []) ++
  ('a' :: 'n' :: 's' :: 'w' :: 'e' :: 'r' :: ' ' :: []) ++
  ('y' :: 'o' :: 'u' :: 'r' :: ' ' :: []) ++
  ('q' :: 'u' :: 'e' :: 's' :: 't' :: 'i' :: 'o' :: 'n' :: ':' :: ' ' :: quoteChar :: []) ++
  question ++ [quoteChar]

def questionPrefix : List Char :=
  'Q' :: 'u' :: 'e' :: 's' :: 't' :: 'i' :: 'o' :: 'n' :: ':' :: ' ' :: []

def contextHeader : List Char :=
  '\n' :: '\n' :: 'C' :: 'o' :: 'n' :: 't' :: 'e' :: 'x' :: 't' :: ':' :: '\n' :: []

/-- The user-message content sent to the generative service. -/
def promptOf (question : List Char) (hits : List Hit) : List Char :=
  questionPrefix ++ question ++ contextHeader ++ buildContext perSnippetDefault hits

/-- `generateAnswerWithOpenAI` with the network call abstracted as `llm`. -/
def generateAnswer (question : List Char) (hits : List Hit)
    (llm : List Char → List Char) : List Char :=
  if hits.length = 0 then noInfoAnswer question
  else llm (promptOf question hits)

/-- The batch chat pipeline after retrieval (`POST`, lines 68-84): dedupe,
format citations, generate, sanitize, return `(answer, citations)`. -/
def chatBatch (question : List Char) (rawHits : List Hit)
    (llm : List Char → List Char) : List Char × List Citation :=
  let hits := dedupeByArticle rawHits DEFAULT_TOP_K
  let citations := formatCitations hits
  let answer := generateAnswer question hits llm
  (sanitize hits.length answer, citations)

/-! ### Streaming events

The streaming chat handler (`src/web/src/routes/api/graph/+server.ts`,
lines 513-620) enqueues the citations event first, then one sanitized chunk
event per upstream `data:` line that decodes to a non-empty delta content
(`[DONE]` tags, non-data lines, malformed JSON lines and empty contents are
skipped), then a single terminal event: `done` after a clean end of stream,
or `error` from the catch block when the upstream request or transport
fails after delivering `lines`. -/

inductive StreamEvent where
  | citations (cits : List Citation)
  | chunk (content : List Char)
  | done
  | error (msg : List Char)
deriving DecidableEq

/-- One upstream SSE line, as seen by the reader loop after splitting. -/
inductive UpstreamLine where
  | notData
  | doneTag
  | malformed
  | delta (content : List Char)
deriving DecidableEq

def failedAnswerError : List Char :=
  ('F' :: 'a' :: 'i' :: 'l' :: 'e' :: 'd' :: ' ' :: 't' :: 'o' :: ' ' :: []) ++
  ('g' :: 'e' :: 'n' :: 'e' :: 'r' :: 'a' :: 't' :: 'e' :: ' ' :: []) ++
  ('a' :: 'n' :: 's' :: 'w' :: 'e' :: 'r' :: [])

/-- The event (if any) produced for one upstream line: only a parsed line
with truthy `choices[0].delta.content` yields a chunk, sanitized with the
same marker-clamping pass. -/
def lineEvent (N : Nat) : UpstreamLine → Option StreamEvent
  | .delta c => if c = [] then none else some (.chunk (sanitize N c))
  | _ => none

/-- The full event sequence of one streaming request: `lines` are the
upstream lines delivered before the stream ended, `ok` tells whether the
upstream ended cleanly (`done`) or failed (`error`). -/
def streamEvents (cits : List Citation) (N : Nat) (lines : List UpstreamLine)
    (ok : Bool) : List StreamEvent :=
  StreamEvent.citations cits ::
    (lines.filterMap (lineEvent N) ++ [if ok then .done else .error failedAnswerError])

def isCitationsEvent : StreamEvent → Bool
  | .citations _ => true
  | _ => false

def isTerminalEvent : StreamEvent → Bool
  | .done => true
  | .error _ => true
  | _ => false

/-! ### Assembly lemmas for the dedupe claims -/

theorem dedupeByArticle_eq (hits : List Hit) (K : Nat) :
    dedupeByArticle hits K =
      ((valuesOrder (groupHits hits)).map fun g => bestChunk g.2).take
        (if K ≤ 1 then 1 else K) := by
  unfold dedupeByArticle
  rw [dedupeLoop_eq_take]
  norm_num

/-- A representative with a truthy article id comes from the bucket keyed by
exactly that id. -/
theorem rep_key_of_id {hits : List Hit} {fresh : Nat}
    (hinv : GInv (groupHits hits) fresh (fun h => h ∈ hits))
    {g : GroupKey × List Hit} (hg : g ∈ groupHits hits)
    {a : List Char} (ha : a ≠ []) (hid : articleId (bestChunk g.2) = some a) :
    g.1 = Sum.inl a := by
  obtain ⟨hnd, h2, h3, h4⟩ := hinv
  have hne : g.2 ≠ [] := (h2 g hg).1
  have hmem : bestChunk g.2 ∈ g.2 := bestChunk_mem hne
  rcases hk : g.1 with a2 | n
  · have hgm : (Sum.inl a2, g.2) ∈ groupHits hits := by
      rw [← hk]
      simpa using hg
    have hall := (h3 a2 g.2 hgm).2
    have : articleId (bestChunk g.2) = some a2 := hall _ hmem
    rw [hid] at this
    have : a = a2 := by simpa using this
    rw [this]
  · have hgm : (Sum.inr n, g.2) ∈ groupHits hits := by
      rw [← hk]
      simpa using hg
    obtain ⟨-, c, hc, hfalsy⟩ := h4 n g.2 hgm
    have hbc : bestChunk g.2 = c := by rw [hc]; rfl
    rw [hbc] at hid
    rcases hfalsy with hf | hf <;> rw [hf] at hid
    · exact absurd hid (by simp)
    · have : ([] : List Char) = a := by simpa using hid
      exact absurd this.symm ha

theorem mem_dedupe_exists_group {hits : List Hit} {K : Nat} {e : Hit}
    (he : e ∈ dedupeByArticle hits K) :
    ∃ g ∈ valuesOrder (groupHits hits), e = bestChunk g.2 := by
  rw [dedupeByArticle_eq] at he
  have he2 := List.take_subset _ _ he
  obtain ⟨g, hgm, hge⟩ := List.mem_map.mp he2
  exact ⟨g, hgm, hge.symm⟩

/-- A hit with just an article id and a score, for concrete instances. -/
def mkHit (aid : Option (List Char)) (sc : Option Rat) : Hit :=
  { source := some { article_id := aid, title := none, url := none, content := none },
    score := sc, highlightContent := none }

/-! ### Claim theorems -/

/-- C1 counterexample: the claim "after sanitization every remaining `[k]`
marker satisfies 1 ≤ k ≤ N" is false as stated.  With N = 3 evidence items,
sanitizing `[[7]7]` deletes the matched out-of-range marker `[7]` and the
deletion splices the surrounding characters into the output `[7]` — an
out-of-range marker that survives. -/
theorem C1_counterexample :
    sanitize 3 ("[[7]7]".toList) = "[7]".toList ∧
    ¬ (∀ k ∈ markersOf (sanitize 3 ("[[7]7]".toList)), 1 ≤ k ∧ k ≤ 3) := by
  constructor
  · decide
  · decide

/-- C1 (amended): for every generated answer containing no occurrence of an
opening bracket followed by a digit run followed by another opening bracket
(the splice pattern), every bracketed numeric marker `[k]` remaining after
the citation-sanitization pass satisfies 1 ≤ k ≤ N, where N is the
deduplicated evidence-set size. -/
theorem C1_sanitize_markers_in_range (N : Nat) (s : List Char)
    (h : hasSplicePattern s = false) :
    ∀ k ∈ markersOf (sanitize N s), 1 ≤ k ∧ k ≤ N :=
  sanitize_markers_range_aux N s.length s (le_refl _) h

/-- C1 witness: the amended theorem applied to a concrete answer text. -/
theorem C1_witness :
    hasSplicePattern ("Bone [1] grows [7] fast [2].".toList) = false ∧
    ∀ k ∈ markersOf (sanitize 3 ("Bone [1] grows [7] fast [2].".toList)),
      1 ≤ k ∧ k ≤ 3 :=
  ⟨by decide, C1_sanitize_markers_in_range 3 _ (by decide)⟩

/-- C2: for every per-passage cap and every hit list, the assembled context
string is at most `MAX_CONTEXT_CHARS = 3600` characters long, and the
included blocks are a prefix of the full block list — a block is only ever
included whole, in evidence order. -/
theorem C2_context_within_budget (P : Nat) (hits : List Hit) :
    (buildContext P hits).length ≤ MAX_CONTEXT_CHARS ∧
    ∃ m, buildBlocks P hits 0 0 = (blocksAllFrom P 0 hits).take m :=
  ⟨buildContext_length P hits, buildBlocks_take_eq P hits 0 0⟩

/-- C5: the citation formatter returns exactly one citation per evidence
element; the citation at zero-based position i is derived from evidence
element i, carries id rendered from i + 1, and that id parses back to
i + 1 — a bijective, order-preserving legend. -/
theorem C5_citations_bijective (hits : List Hit) :
    (formatCitations hits).length = hits.length ∧
    (∀ i (hi : i < (formatCitations hits).length) (hi2 : i < hits.length),
      (formatCitations hits).get ⟨i, hi⟩ = citationOf i (hits.get ⟨i, hi2⟩)) ∧
    (∀ i (hi2 : i < hits.length),
      (citationOf i (hits.get ⟨i, hi2⟩)).id = natDigits (i + 1) ∧
      digitsToNat ((citationOf i (hits.get ⟨i, hi2⟩)).id) = i + 1) := by
  refine ⟨formatCitationsAux_length hits 0, ?_, ?_⟩
  · intro i hi hi2
    have := formatCitationsAux_get hits 0 i hi hi2
    simpa using this
  · intro i hi2
    refine ⟨rfl, ?_⟩
    show digitsToNat (natDigits (i + 1)) = i + 1
    exact digitsToNat_natDigits (i + 1)

/-- C5 witness: the theorem applied to a concrete one-element evidence set. -/
theorem C5_witness :
    (formatCitations [mkHit none none]).get ⟨0, by decide⟩ =
      citationOf 0 ([mkHit none none].get ⟨0, by decide⟩) :=
  (C5_citations_bijective [mkHit none none]).2.1 0 (by decide) (by decide)

/-- C6 counterexample: the claim "keeps the marker verbatim when
1 ≤ n ≤ N" is false as stated — an in-range marker with leading zeros is
rewritten to its canonical decimal form, not kept verbatim: `[01]` with
N = 3 becomes `[1]`. -/
theorem C6_counterexample :
    sanitize 3 ("[01]".toList) = "[1]".toList ∧ "[1]".toList ≠ "[01]".toList := by
  constructor
  · decide
  · decide

/-- C6 (amended): sanitization processes each non-overlapping match of
bracket-digits-bracket; it parses the digits as an integer n, replaces the
marker by the canonical rendering `[n]` (identical to the original marker
unless the digits had leading zeros) when 1 ≤ n ≤ N, and deletes the
entire marker including brackets otherwise, leaving surrounding text
untouched; the scenario "Bone loss occurs [1] and also [7]." with N = 3
becomes "Bone loss occurs [1] and also .". -/
theorem C6_sanitizer_match_behavior :
    (∀ (N : Nat) (pre ds rest : List Char), (∀ c ∈ pre, c ≠ '[') →
      (∀ c ∈ ds, c.isDigit = true) → ds ≠ [] →
      sanitize N (pre ++ '[' :: (ds ++ ']' :: rest)) =
        pre ++ ((if 1 ≤ digitsToNat ds ∧ digitsToNat ds ≤ N
          then renderMarker (digitsToNat ds) else []) ++ sanitize N rest)) ∧
    sanitize 3 ("Bone loss occurs [1] and also [7].".toList) =
      "Bone loss occurs [1] and also .".toList := by
  constructor
  · intro N pre ds rest hpre hds hne
    rw [sanitize_append_copy N pre _ hpre,
      sanitize_open_some N (splitMarker_build rest hds hne)]
  · decide

/-- C6 witness: the amended per-match behavior at a concrete input. -/
theorem C6_witness :
    (∀ c ∈ ("ab ".toList), c ≠ '[') ∧ (∀ c ∈ ['7'], Char.isDigit c = true) ∧
    (['7'] ≠ ([] : List Char)) ∧
    sanitize 3 ("ab ".toList ++ '[' :: (['7'] ++ ']' :: " cd".toList)) =
      "ab ".toList ++ ((if 1 ≤ digitsToNat ['7'] ∧ digitsToNat ['7'] ≤ 3
        then renderMarker (digitsToNat ['7']) else []) ++ sanitize 3 (" cd".toList)) :=
  ⟨by decide, by decide, by decide,
    C6_sanitizer_match_behavior.1 3 _ _ _ (by decide) (by decide) (by decide)⟩

/-- C3 counterexample: the claim fails as stated on two points.  With
limit 0 the loop pushes one representative before checking the bound, so
the output exceeds K; and two hits whose article_id is the empty string
(present but falsy, hence treated as missing) both survive, sharing the
same owning-document identity. -/
theorem C3_counterexample :
    (dedupeByArticle [mkHit (some ['x']) none] 0).length = 1 ∧
    dedupeByArticle [mkHit (some []) (some 1), mkHit (some []) (some 2)] 4 =
      [mkHit (some []) (some 1), mkHit (some []) (some 2)] ∧
    articleId (mkHit (some []) (some 1)) = some [] ∧
    articleId (mkHit (some []) (some 2)) = some [] := by
  refine ⟨by decide, by decide, by decide, by decide⟩

/-- C3 (amended): for every hit list and every limit K ≥ 1, the
deduplicated output has at most K elements; no two output elements carry
the same non-empty article id; and every hit whose article id is missing or
empty is bucketed as its own singleton group, never merged with another
such hit. -/
theorem C3_dedupe_invariants (hits : List Hit) (K : Nat) (hK : 1 ≤ K) :
    (dedupeByArticle hits K).length ≤ K ∧
    (∀ i j (hi : i < (dedupeByArticle hits K).length)
        (hj : j < (dedupeByArticle hits K).length), i ≠ j →
      ∀ a : List Char, a ≠ [] →
      articleId ((dedupeByArticle hits K).get ⟨i, hi⟩) = some a →
      articleId ((dedupeByArticle hits K).get ⟨j, hj⟩) = some a → False) ∧
    (∀ n chunks, (Sum.inr n, chunks) ∈ groupHits hits →
      ∃ c, chunks = [c] ∧ (articleId c = none ∨ articleId c = some [])) := by
  obtain ⟨fresh, hinv⟩ := groupHits_inv hits
  refine ⟨?_, ?_, ?_⟩
  · rw [dedupeByArticle_eq]
    have h1 : ((((valuesOrder (groupHits hits)).map fun g => bestChunk g.2)).take
        (if K ≤ 1 then 1 else K)).length ≤ (if K ≤ 1 then 1 else K) := by
      rw [List.length_take]
      exact Nat.min_le_left _ _
    have h2 : (if K ≤ 1 then 1 else K) ≤ K := by
      split <;> omega
    exact le_trans h1 h2
  · intro i j hi hj hij a ha hai haj
    have key : ∀ (i : Nat) (hi : i < (dedupeByArticle hits K).length),
        ∃ (hvi : i < (valuesOrder (groupHits hits)).length),
          (dedupeByArticle hits K).get ⟨i, hi⟩ =
            bestChunk (((valuesOrder (groupHits hits)).get ⟨i, hvi⟩).2) := by
      intro i2 hi2
      have hi3 : i2 < (((valuesOrder (groupHits hits)).map
          fun g => bestChunk g.2).take (if K ≤ 1 then 1 else K)).length := by
        rw [← dedupeByArticle_eq]
        exact hi2
      have hi4 : i2 < ((valuesOrder (groupHits hits)).map
          fun g => bestChunk g.2).length := by
        rw [List.length_take] at hi3
        omega
      have hi5 : i2 < (valuesOrder (groupHits hits)).length := by
        rwa [List.length_map] at hi4
      refine ⟨hi5, ?_⟩
      have hout := List.get_of_eq (dedupeByArticle_eq hits K) ⟨i2, hi2⟩
      rw [hout]
      rw [List.get_eq_getElem, List.get_eq_getElem, List.getElem_take,
        List.getElem_map]
    obtain ⟨hvi, hei⟩ := key i hi
    obtain ⟨hvj, hej⟩ := key j hj
    rw [hei] at hai
    rw [hej] at haj
    have hgi := valuesOrder_mem (List.get_mem (valuesOrder (groupHits hits)) i hvi)
    have hgj := valuesOrder_mem (List.get_mem (valuesOrder (groupHits hits)) j hvj)
    have hki := rep_key_of_id hinv hgi ha hai
    have hkj := rep_key_of_id hinv hgj ha haj
    have hnd : (groupKeys (valuesOrder (groupHits hits))).Nodup :=
      valuesOrder_keys_nodup hinv.1
    have hkeysi : (groupKeys (valuesOrder (groupHits hits))).get
        ⟨i, by simpa [groupKeys] using hvi⟩ = Sum.inl a := by
      simp only [groupKeys, List.get_eq_getElem, List.getElem_map]
      exact hki
    have hkeysj : (groupKeys (valuesOrder (groupHits hits))).get
        ⟨j, by simpa [groupKeys] using hvj⟩ = Sum.inl a := by
      simp only [groupKeys, List.get_eq_getElem, List.getElem_map]
      exact hkj
    have := hnd.get_inj_iff.mp (hkeysi.trans hkeysj.symm)
    exact hij (by simpa using this)
  · intro n chunks hm
    obtain ⟨-, c, hc⟩ := hinv.2.2.2 n chunks hm
    exact ⟨c, hc⟩

/-- C3 witness: the amended theorem applied to a concrete input. -/
theorem C3_witness :
    (dedupeByArticle [mkHit (some ['A']) none, mkHit (some ['A']) none] 2).length ≤ 2 :=
  (C3_dedupe_invariants [mkHit (some ['A']) none, mkHit (some ['A']) none] 2
    (by decide)).1

/-- C4 counterexample: the claimed first-encountered emission order is
false as stated.  Article ids "2" then "1" are both canonical array-index
numerals, so `Object.values` enumerates them in ascending numeric order:
the output is the id-"1" representative first, not the first-encountered
id-"2" one. -/
theorem C4_counterexample :
    dedupeByArticle [mkHit (some ['2']) none, mkHit (some ['1']) none] 2 =
      [mkHit (some ['1']) none, mkHit (some ['2']) none] ∧
    [mkHit (some ['1']) none, mkHit (some ['2']) none] ≠
      [mkHit (some ['2']) none, mkHit (some ['1']) none] := by
  constructor
  · decide
  · decide

/-- C4 (amended): (a) the scenario holds: raw passages
[{A, 0.9}, {A, 0.7}, {B, 0.8}] with K = 2 dedupe to [{A, 0.9}, {B, 0.8}];
(b) every output element with a non-empty article id is the representative
of the group of input hits carrying that id: the group, in input order,
splits around it with strictly smaller scores before it and no larger score
anywhere in the group (highest score, ties broken by input order);
(d) when no article id is a canonical array-index numeral, the groups are
emitted in first-encountered order, truncated to max(K, 1) groups —
otherwise array-index-named groups are enumerated first in ascending
numeric order. -/
theorem C4_dedupe_selection :
    (dedupeByArticle [mkHit (some ['A']) (some (mkRat 9 10)),
        mkHit (some ['A']) (some (mkRat 7 10)),
        mkHit (some ['B']) (some (mkRat 8 10))] 2 =
      [mkHit (some ['A']) (some (mkRat 9 10)), mkHit (some ['B']) (some (mkRat 8 10))]) ∧
    (∀ (hits : List Hit) (K : Nat) (a : List Char) (e : Hit), a ≠ [] →
      e ∈ dedupeByArticle hits K → articleId e = some a →
      ∃ pre post,
        hits.filter (fun h => decide (articleId h = some a)) = pre ++ e :: post ∧
        (∀ x ∈ pre, scoreD x < scoreD e) ∧
        (∀ x ∈ hits.filter (fun h => decide (articleId h = some a)),
          scoreD x ≤ scoreD e)) ∧
    (∀ (hits : List Hit) (K : Nat),
      (∀ h ∈ hits, ∀ a, articleId h = some a → isArrayIndexName a = false) →
      dedupeByArticle hits K =
        ((groupHits hits).map fun g => bestChunk g.2).take
          (if K ≤ 1 then 1 else K)) := by
  refine ⟨by decide, ?_, ?_⟩
  · intro hits K a e ha he hid
    obtain ⟨fresh, hinv⟩ := groupHits_inv hits
    obtain ⟨g, hgvo, rfl⟩ := mem_dedupe_exists_group he
    have hg := valuesOrder_mem hgvo
    have hkey := rep_key_of_id hinv hg ha hid
    have hgm : (Sum.inl a, g.2) ∈ groupHits hits := by
      rw [← hkey]
      simpa using hg
    have hchunks : g.2 = hits.filter (fun h => decide (articleId h = some a)) := by
      have h1 := assocChunks_of_mem hinv.1 hgm
      have h2 := groupHits_inl_chunks hits ha
      rw [h2] at h1
      exact h1.symm
    have hne : g.2 ≠ [] := (hinv.2.1 g hg).1
    obtain ⟨pre, post, heq, hlt, hle⟩ := bestChunk_spec g.2 hne
    refine ⟨pre, post, ?_, hlt, ?_⟩
    · rw [← hchunks]
      exact heq
    · intro x hx
      rw [← hchunks] at hx
      exact hle x hx
  · intro hits K hnoidx
    obtain ⟨fresh, hinv⟩ := groupHits_inv hits
    have hvo : valuesOrder (groupHits hits) = groupHits hits := by
      apply valuesOrder_of_no_index
      intro g hg
      rcases hk : g.1 with b | n
      · have hgm : (Sum.inl b, g.2) ∈ groupHits hits := by
          rw [← hk]
          simpa using hg
        obtain ⟨hbne, hall⟩ := hinv.2.2.1 b g.2 hgm
        have hne : g.2 ≠ [] := (hinv.2.1 g hg).1
        obtain ⟨c, hc⟩ := List.exists_mem_of_ne_nil _ hne
        have hcin : c ∈ hits := (hinv.2.1 g hg).2 c hc
        have hcb := hall c hc
        have := hnoidx c hcin b hcb
        simpa [isArrayIndexKey] using this
      · rfl
    rw [dedupeByArticle_eq, hvo]

/-- C4 witness: the representative characterization applied to the scenario
input and document A. -/
theorem C4_witness :
    ∃ pre post,
      ([mkHit (some ['A']) (some (mkRat 9 10)), mkHit (some ['A']) (some (mkRat 7 10)),
        mkHit (some ['B']) (some (mkRat 8 10))].filter
          (fun h => decide (articleId h = some ['A']))) =
        pre ++ mkHit (some ['A']) (some (mkRat 9 10)) :: post ∧
      (∀ x ∈ pre, scoreD x < scoreD (mkHit (some ['A']) (some (mkRat 9 10)))) ∧
      (∀ x ∈ ([mkHit (some ['A']) (some (mkRat 9 10)),
          mkHit (some ['A']) (some (mkRat 7 10)),
          mkHit (some ['B']) (some (mkRat 8 10))].filter
            (fun h => decide (articleId h = some ['A']))),
        scoreD x ≤ scoreD (mkHit (some ['A']) (some (mkRat 9 10)))) :=
  C4_dedupe_selection.2.1 _ 2 ['A'] _ (by decide) (by decide) (by decide)

/-- C7: for every streaming request the delivered event sequence starts
with exactly one citations event, continues with the sanitized chunk events
in upstream order, and ends with exactly one terminal event — `done` when
the upstream stream ended cleanly, `error` when it failed. -/
theorem C7_stream_event_shape (cits : List Citation) (N : Nat)
    (lines : List UpstreamLine) (ok : Bool) :
    (streamEvents cits N lines ok).head? = some (.citations cits) ∧
    ((streamEvents cits N lines ok).filter isCitationsEvent).length = 1 ∧
    (streamEvents cits N lines ok).getLast? =
      some (if ok then .done else .error failedAnswerError) ∧
    ((streamEvents cits N lines ok).filter isTerminalEvent).length = 1 ∧
    ((streamEvents cits N lines ok).drop 1).dropLast =
      lines.filterMap (lineEvent N) := by
  have hmid : ∀ e ∈ lines.filterMap (lineEvent N),
      isCitationsEvent e = false ∧ isTerminalEvent e = false := by
    intro e he
    obtain ⟨l, -, hl⟩ := List.mem_filterMap.mp he
    rcases l with _ | _ | _ | c <;> simp only [lineEvent] at hl
    · exact Option.noConfusion hl
    · exact Option.noConfusion hl
    · exact Option.noConfusion hl
    · rcases Classical.em (c = []) with hc | hc
      · rw [if_pos hc] at hl
        exact Option.noConfusion hl
      · rw [if_neg hc] at hl
        have : StreamEvent.chunk (sanitize N c) = e := Option.some.injEq .. ▸ hl
        rw [← this]
        exact ⟨rfl, rfl⟩
  have hmidcit : (lines.filterMap (lineEvent N)).filter isCitationsEvent = [] := by
    rw [List.filter_eq_nil]
    intro e he
    simp [(hmid e he).1]
  have hmidterm : (lines.filterMap (lineEvent N)).filter isTerminalEvent = [] := by
    rw [List.filter_eq_nil]
    intro e he
    simp [(hmid e he).2]
  have hse : streamEvents cits N lines ok =
      StreamEvent.citations cits ::
        (lines.filterMap (lineEvent N) ++
          [if ok then StreamEvent.done else StreamEvent.error failedAnswerError]) := rfl
  refine ⟨rfl, ?_, ?_, ?_, ?_⟩
  · rw [hse, List.filter_cons_of_pos (by rfl), List.filter_append, hmidcit]
    rcases ok with _ | _ <;> simp [isCitationsEvent]
  · rw [hse, ← List.cons_append, List.getLast?_concat]
  · rw [hse, List.filter_cons_of_neg (by simp [isTerminalEvent]),
      List.filter_append, hmidterm]
    rcases ok with _ | _ <;> simp [isTerminalEvent]
  · rw [hse, List.drop_one, List.tail_cons, List.dropLast_concat]

/-- C8: with zero deduplicated passages the batch path is not an error: the
generative call is skipped entirely (the answer is independent of the
generative oracle and equals the fixed no-information message), the
citations list is empty, and whenever the question itself contains no
bracketed numeric marker the returned answer is exactly the fixed
message. -/
theorem C8_no_evidence_short_circuit (q : List Char)
    (llm llm2 : List Char → List Char) :
    generateAnswer q [] llm = noInfoAnswer q ∧
    generateAnswer q [] llm = generateAnswer q [] llm2 ∧
    chatBatch q [] llm = (sanitize 0 (noInfoAnswer q), []) ∧
    (markersOf (noInfoAnswer q) = [] → chatBatch q [] llm = (noInfoAnswer q, [])) := by
  refine ⟨rfl, rfl, rfl, ?_⟩
  intro hmk
  show (sanitize 0 (noInfoAnswer q), ([] : List Citation)) = _
  rw [sanitize_of_no_markers 0 (noInfoAnswer q).length _ (le_refl _) hmk]

/-- C8 witness: the theorem applied to a concrete marker-free question. -/
theorem C8_witness :
    markersOf (noInfoAnswer ("why bones".toList)) = [] ∧
    chatBatch ("why bones".toList) [] (fun s => s) =
      (noInfoAnswer ("why bones".toList), []) :=
  ⟨by decide,
    (C8_no_evidence_short_circuit ("why bones".toList) (fun s => s) (fun s => s)).2.2.2
      (by decide)⟩

/-- C9: the embedding client probes known response shapes in order: a
`predicted_value` that is an array whose first element is an array is
unwrapped to that first element; a `predicted_value` that is an array not
starting with an array is returned unchanged; otherwise the nested
`text_embedding[0].embedding` array is used; and when none of these shapes
match, the client fails with the distinct missing-vector error.  The spec
scenarios `{predicted_value: [[0.1, 0.2]]}` and
`{predicted_value: [0.1, 0.2]}` both yield `[0.1, 0.2]`. -/
theorem C9_embedding_probe :
    (∀ (d : JVal) (l0 rest : List JVal),
      jget d pvKey = some (.jarr (.jarr l0 :: rest)) →
      embedQueryParse d = .ok l0) ∧
    (∀ (d : JVal) (l : List JVal), jget d pvKey = some (.jarr l) →
      (∀ (v : List JVal) (rest : List JVal), l ≠ .jarr v :: rest) →
      embedQueryParse d = .ok l) ∧
    (∀ (d : JVal) (te : List JVal),
      (∀ l : List JVal, jget d pvKey ≠ some (.jarr l)) →
      (((jget d teKey).bind fun v => jidx v 0).bind fun v => jget v embKey) =
        some (.jarr te) →
      embedQueryParse d = .ok te) ∧
    (∀ d : JVal, (∀ l : List JVal, jget d pvKey ≠ some (.jarr l)) →
      (∀ te : List JVal,
        (((jget d teKey).bind fun v => jidx v 0).bind fun v => jget v embKey) ≠
          some (.jarr te)) →
      embedQueryParse d = .error missingVectorError) ∧
    embedQueryParse (.jobj [(pvKey,
        .jarr [.jarr [.jnum (mkRat 1 10), .jnum (mkRat 2 10)]])]) =
      .ok [.jnum (mkRat 1 10), .jnum (mkRat 2 10)] ∧
    embedQueryParse (.jobj [(pvKey,
        .jarr [.jnum (mkRat 1 10), .jnum (mkRat 2 10)])]) =
      .ok [.jnum (mkRat 1 10), .jnum (mkRat 2 10)] := by
  refine ⟨?_, ?_, ?_, ?_, rfl, rfl⟩
  · intro d l0 rest h
    rw [embedQueryParse, h]
  · intro d l h hne
    rw [embedQueryParse, h]
    rcases l with _ | ⟨v, rest⟩
    · rfl
    · rcases v with _ | b | q | s | elems | fields
      · rfl
      · rfl
      · rfl
      · rfl
      · exact absurd rfl (hne elems rest)
      · rfl
  · intro d te hpv hte
    rw [embedQueryParse]
    rcases hp : jget d pvKey with _ | v
    · rw [hte]
    · rcases v with _ | b | q | s | elems | fields
      · rw [hte]
      · rw [hte]
      · rw [hte]
      · rw [hte]
      · exact absurd hp (hpv elems)
      · rw [hte]
  · intro d hpv hte
    rw [embedQueryParse]
    have hmatch : ∀ r : Option JVal,
        (∀ te : List JVal, r ≠ some (.jarr te)) →
        (match r with
          | some (.jarr te) => Except.ok te
          | _ => Except.error missingVectorError) =
          (Except.error missingVectorError : Except (List Char) (List JVal)) := by
      intro r hr
      rcases r with _ | v
      · rfl
      · rcases v with _ | b | q | s | elems | fields
        · rfl
        · rfl
        · rfl
        · rfl
        · exact absurd rfl (hr elems)
        · rfl
    rcases hp : jget d pvKey with _ | v
    · exact hmatch _ hte
    · rcases v with _ | b | q | s | elems | fields
      · exact hmatch _ hte
      · exact hmatch _ hte
      · exact hmatch _ hte
      · exact hmatch _ hte
      · exact absurd hp (hpv elems)
      · exact hmatch _ hte

/-- C9 witness: the unwrap case applied to the concrete nested payload. -/
theorem C9_witness :
    embedQueryParse (.jobj [(pvKey, .jarr [.jarr [.jnum (mkRat 1 10)]])]) =
      .ok [.jnum (mkRat 1 10)] :=
  C9_embedding_probe.1 _ [.jnum (mkRat 1 10)] [] rfl

/-- C10 counterexample: the claim "the snippet is omitted only when both
the highlight and the content are empty" is false — a hit with highlight
"foo" and no content gets no snippet. -/
theorem C10_counterexample :
    (citationOf 0 (Hit.mk none none (some ["foo".toList]))).snippet = none ∧
    ("foo".toList ≠ ([] : List Char)) := by
  constructor
  · decide
  · decide

/-- C10 (amended): when the highlight is non-empty, the content is
non-empty, and the content does not contain the highlight as a substring,
the snippet is exactly the first 400 characters of the highlight —
present, with no sentence expansion and no ellipsis appended; and the
snippet of a formatted citation is omitted exactly when the content of the hit
is empty (regardless of the highlight). -/
theorem C10_snippet_behavior :
    (∀ hl c : List Char, hl ≠ [] → c ≠ [] → indexOfSub c hl = none →
      extractFullSentence hl c 400 = some (hl.take 400)) ∧
    (∀ (idx : Nat) (h : Hit),
      (citationOf idx h).snippet = none ↔ (sourceOf h).content.getD [] = []) := by
  constructor
  · intro hl c h1 h2 h3
    rw [extractFullSentence, if_neg (by tauto), h3]
  · exact citationOf_snippet_none_iff

/-- C10 witness: the no-occurrence branch at a concrete highlight and
content. -/
theorem C10_witness :
    extractFullSentence ("foo".toList) ("bar".toList) 400 =
      some (("foo".toList).take 400) :=
  C10_snippet_behavior.1 ("foo".toList) ("bar".toList) (by decide) (by decide)
    (by decide)

end SpaceHacks
